import Mathlib

/-!
# gnock: manifest parsing, path handling and package installation

A shallow embedding of `internal/modfile/parser.go` and `internal/fetch.go`.

Go strings are modelled as lists of Unicode code points (`Str`), i.e. as
valid UTF-8 text; byte lengths are recovered with `utf8Len`.
-/

namespace Gnock

/-- Go `string`, as the list of the code points of a valid UTF-8 text. -/
abbrev Str := List Char

/-- Number of bytes of the UTF-8 encoding of one code point. -/
def runeLen (c : Char) : Nat :=
  if c.toNat < 0x80 then 1
  else if c.toNat < 0x800 then 2
  else if c.toNat < 0x10000 then 3
  else 4

/-- Go `len(s)`: the number of bytes of the UTF-8 encoding of `s`. -/
def utf8Len : Str → Nat
  | [] => 0
  | c :: cs => runeLen c + utf8Len cs

/-! ## Go errors -/

deriving instance DecidableEq for Except

/-- Go `error` values met in the program: the two sentinels, errors coming
from the operating system, of which the description of the error number is
kept (not the operation and the path Go puts before it), and errors built by
`fmt.Errorf`, which carry only their message. -/
inductive GoError where
  | ErrInvalidURL
  | ErrTooLong
  | os (msg : Str)
  | errorf (msg : Str)
  deriving DecidableEq, Repr

/-- The `Error()` method: the message of an error. -/
def GoError.Error : GoError → Str
  | .ErrInvalidURL => "invalid URL".toList
  | .ErrTooLong => "bufio.Scanner: token too long".toList
  | .os msg => msg
  | .errorf msg => msg

/-! ## package strings / unicode -/

/-- Go `unicode.IsSpace`. -/
def isSpace (c : Char) : Bool :=
  let n := c.toNat
  n == 0x09 || n == 0x0A || n == 0x0B || n == 0x0C || n == 0x0D || n == 0x20 ||
  n == 0x85 || n == 0xA0 || n == 0x1680 || (0x2000 ≤ n && n ≤ 0x200A) ||
  n == 0x2028 || n == 0x2029 || n == 0x202F || n == 0x205F || n == 0x3000

/-- Go `strings.TrimSpace`: leading and trailing white space removed. -/
def TrimSpace (s : Str) : Str :=
  ((s.dropWhile isSpace).reverse.dropWhile isSpace).reverse

/-- Go `strings.HasPrefix`. -/
def HasPrefix (s pre : Str) : Bool := pre.isPrefixOf s

/-- Puts one more code point in front of the first piece of a list of pieces. -/
def consHead (c : Char) : List Str → List Str
  | f :: fs => (c :: f) :: fs
  | [] => [[c]]

/-- Whether a string is empty or starts with white space, i.e. whether a
field that ends right before it is complete. -/
def fieldEnds : Str → Bool
  | [] => true
  | d :: _ => isSpace d

/-- Go `strings.Fields`: the maximal runs of non-space code points. -/
def Fields : Str → List Str
  | [] => []
  | c :: cs =>
    if isSpace c then Fields cs
    else if fieldEnds cs then [c] :: Fields cs
    else consHead c (Fields cs)

/-- Go `strings.Split(s, sep)` for a one-character separator: the pieces
between the occurrences of `sep`, one more than there are occurrences. -/
def Split (sep : Char) : Str → List Str
  | [] => [[]]
  | c :: cs =>
    if c = sep then [] :: Split sep cs
    else consHead c (Split sep cs)

/-! ## bufio.Scanner with the default line splitter -/

/-- Go `bufio.MaxScanTokenSize`: the scanner's buffer holds this many bytes. -/
def MaxScanTokenSize : Nat := 64 * 1024

/-- The `dropCR` helper of `bufio.ScanLines`: one trailing carriage return is
removed. -/
def dropCR (l : Str) : Str :=
  if l.getLast? = some '\r' then l.dropLast else l

/-- The raw lines a `bufio.Scanner` is going to meet in `data`: the pieces
between newlines, the piece after the last newline only when it is not
empty. -/
def scanLines (data : Str) : List Str :=
  let ls := Split '\n' data
  if ls.getLast? = some [] then ls.dropLast else ls

/-! ## internal/modfile -/

namespace modfile

/-- Go `type Module struct { Path string }`. -/
structure Module where
  Path : Str
  deriving DecidableEq, Repr

/-- The keyword looked for by `Parse`. -/
def moduleKeyword : Str := "module".toList

/-- The `for scanner.Scan()` loop of `Parse` and what follows it, over the
raw lines still ahead of the scanner.  A raw line that fills the scanner's
buffer (`MaxScanTokenSize` bytes without a newline) stops the scan with
`ErrTooLong`, which `Parse` returns after the loop. -/
def parseLines : List Str → Except GoError Module
  | [] => .error (.errorf "module declaration not found".toList)
  | raw :: rest =>
    if MaxScanTokenSize ≤ utf8Len raw then .error .ErrTooLong
    else
      let line := TrimSpace (dropCR raw)
      if HasPrefix line moduleKeyword then
        let parts := Fields line
        if parts.length ≠ 2 then
          .error (.errorf ("invalid module declaration: ".toList ++ line))
        else
          .ok ⟨parts.getD 1 []⟩
      else parseLines rest

/-- Go `modfile.Parse`, given what `os.Open` yields for the path: an error,
or the text of the file. -/
def Parse (file : Except GoError Str) : Except GoError Module :=
  match file with
  | .error err => .error err
  | .ok data => parseLines (scanLines data)

end modfile


/-! ## path/filepath (Unix) -/

namespace strings

/-- Go `strings.Join(elems, sep)` for a one-character separator. -/
def Join (sep : Char) : List Str → Str
  | [] => []
  | [e] => e
  | e :: es => e ++ sep :: Join sep es

end strings

namespace filepath

/-- The path element `..`. -/
def dotdot : Str := ['.', '.']

/-- One round of the loop of `filepath.Clean`: the path element `seg` is
processed.  `out` is the output written so far, last element first; `rooted`
tells whether the path starts with a slash.  Empty elements and `.` are
dropped; `..` removes the last element written when there is one that is not
itself `..`, is dropped at the root, and is written otherwise; any other
element is written. -/
def cleanStep (rooted : Bool) (out : List Str) (seg : Str) : List Str :=
  if seg = [] ∨ seg = ['.'] then out
  else if seg = dotdot then
    match out with
    | top :: below => if top = dotdot then dotdot :: out else below
    | [] => if rooted then [] else [dotdot]
  else seg :: out

/-- Whether `Clean` does not drop the element: it is neither empty nor `.`. -/
def keeps (seg : Str) : Bool := !(decide (seg = [] ∨ seg = ['.']))

/-- The loop of `filepath.Clean` over the elements of the path. -/
def cleanLoop (rooted : Bool) (segs out : List Str) : List Str :=
  segs.foldl (cleanStep rooted) out

/-- Go `filepath.Clean`: the shortest path equivalent to `path` by purely
lexical processing. -/
def Clean (path : Str) : Str :=
  let rooted := path.head? = some '/'
  let out := (cleanLoop rooted (Split '/' path) []).reverse
  if rooted then '/' :: strings.Join '/' out
  else if out = [] then ['.']
  else strings.Join '/' out

/-- Go `filepath.Join`: the elements from the first non-empty one on are
joined with slashes and the result is cleaned; no such element gives the
empty string. -/
def Join (elem : List Str) : Str :=
  match elem.dropWhile (fun e => e = []) with
  | [] => []
  | es => Clean (strings.Join '/' es)

end filepath

/-! ## The file system

The scratch directories of `os.TempDir()` are kept apart from the rest of the
file system: a scratch directory is a tree (`Node`) that the program reads,
the rest is a map from absolute paths to objects that the program writes
through `os.MkdirAll` and `os.WriteFile`; no destination path leads into a
scratch directory.  Only regular files and directories exist, so a path is
resolved by its elements alone.  Access rights are enforced where the program
removes (`os.RemoveAll`), for a process that owns the scratch directories;
they are recorded but not enforced where it reads and writes: there an
operation that the rights would forbid succeeds. -/

mutual
/-- A regular file with its contents and permission bits, or a directory
with its permission bits and its entries, as `os.ReadDir` lists them. -/
inductive Node where
  | file (data : Str) (mode : Nat)
  | dir (mode : Nat) (entries : Entries)
/-- The entries of a directory: names with the objects they name. -/
inductive Entries where
  | nil
  | cons (name : Str) (node : Node) (rest : Entries)
end

/-- An object of the file system outside the scratch directories. -/
inductive Obj where
  | file (data : Str) (mode : Nat)
  | dir (mode : Nat)
  deriving DecidableEq, Repr

/-- The file system outside the scratch directories: what there is at each
absolute path, given as the list of its elements. -/
abbrev FS := List Str → Option Obj

/-- The file system with `obj` put at `path`. -/
def FS.set (fs : FS) (path : List Str) (obj : Obj) : FS :=
  fun q => if q = path then some obj else fs q

/-- The state of the machine the program runs on. -/
structure World where
  /-- The working directory, an absolute path. -/
  cwd : List Str
  /-- The file mode creation mask of the process. -/
  umask : Nat
  /-- Whether the process runs as the superuser, whom no access right stops. -/
  privileged : Bool
  /-- The file system outside the scratch directories. -/
  fs : FS
  /-- The result of `os.TempDir()`, and whether it is a directory. -/
  tempDir : Str
  tempDirExists : Bool
  /-- The directories there are in `os.TempDir()`, by name. -/
  tmp : Str → Option Node
  /-- The random names `os.MkdirTemp` is going to draw, and how many it has
  drawn. -/
  rand : Nat → Str
  drawn : Nat
  /-- The lines written to the standard output. -/
  stdout : List Str

/-- The permission bits an object is created with: those asked for, less
those of the mask. -/
def applyUmask (umask perm : Nat) : Nat := perm ^^^ (perm &&& umask)

/-- One element of a path is followed from the directory `here`, given last
element first: the empty element and `.` stay, `..` goes up (and stays at the
root), a name goes down. -/
def resolveStep (here : List Str) (seg : Str) : List Str :=
  if seg = [] ∨ seg = ['.'] then here
  else if seg = filepath.dotdot then here.tail
  else seg :: here

/-- The absolute path a path string names for a process whose working
directory is `cwd`. -/
def resolve (cwd : List Str) (path : Str) : List Str :=
  ((Split '/' path).foldl resolveStep
    (if path.head? = some '/' then [] else cwd.reverse)).reverse

/-- The directories `os.MkdirAll` goes through from the root: `done` exists,
the elements `todo` are still to be entered.  A missing directory is created,
a file in the way is an error. -/
def mkdirAllFrom (umask perm : Nat) : List Str → List Str → FS → Option GoError × FS
  | [], _, fs => (none, fs)
  | name :: todo, done, fs =>
    match fs (done ++ [name]) with
    | some (.dir _) => mkdirAllFrom umask perm todo (done ++ [name]) fs
    | some (.file _ _) => (some (.os "not a directory".toList), fs)
    | none =>
      mkdirAllFrom umask perm todo (done ++ [name])
        (fs.set (done ++ [name]) (.dir (applyUmask umask perm)))

/-- Go `os.MkdirAll(path, perm)`. -/
def MkdirAll (path : Str) (perm : Nat) (w : World) : Option GoError × World :=
  match mkdirAllFrom w.umask perm (resolve w.cwd path) [] w.fs with
  | (err, fs) => (err, { w with fs := fs })

/-- Go `os.WriteFile(path, data, perm)`: an existing file is truncated and
written and keeps its permission bits; a missing file is created in its
directory with the permission bits `perm`, less those of the mask. -/
def WriteFile (path : Str) (data : Str) (perm : Nat) (w : World) : Option GoError × World :=
  let p := resolve w.cwd path
  match w.fs p with
  | some (.dir _) => (some (.os "is a directory".toList), w)
  | some (.file _ mode) => (none, { w with fs := w.fs.set p (.file data mode) })
  | none =>
    match w.fs p.dropLast with
    | some (.dir _) => (none, { w with fs := w.fs.set p (.file data (applyUmask w.umask perm)) })
    | some (.file _ _) => (some (.os "not a directory".toList), w)
    | none => (some (.os "no such file or directory".toList), w)

/-! ## internal/fetch.go -/

/-- The name of a manifest file, `gnoModFilename`. -/
def gnoModFilename : Str := "gno.mod".toList

/-- The sentinel `ErrInvalidURL`. -/
def ErrInvalidURL : GoError := .ErrInvalidURL

/-- The destination directory `processDirectory` computes for a module path:
`filepath.Join("gno", "examples", module.Path)`. -/
def destDir (modulePath : Str) : Str :=
  filepath.Join ["gno".toList, "examples".toList, modulePath]

/-- The result of `filepath.Rel(src, path)` in `copyDir` for the entry `name`
of the directory whose own result is `rel`: `.` for `src` itself, the names
from `src` down joined by slashes below it. -/
def childRel (rel name : Str) : Str :=
  if rel = ['.'] then name else rel ++ '/' :: name

mutual
/-- The walk of `filepath.Walk` with the function of `copyDir`, at an object
of the source tree whose path relative to the source is `rel`: a directory is
made at the mirrored path with the permission bits of the source and then its
entries are walked, a file is read and written at the mirrored path with the
permission bits of the source.  The first error ends the walk. -/
def walk (dst : Str) : Str → Node → World → Option GoError × World
  | rel, .file data mode, w => WriteFile (filepath.Join [dst, rel]) data mode w
  | rel, .dir mode entries, w =>
    match MkdirAll (filepath.Join [dst, rel]) mode w with
    | (some err, w1) => (some err, w1)
    | (none, w1) => walkEntries dst rel entries w1
/-- The loop of `filepath.Walk` over the entries of a directory. -/
def walkEntries (dst : Str) : Str → Entries → World → Option GoError × World
  | _, .nil, w => (none, w)
  | rel, .cons name node rest, w =>
    match walk dst (childRel rel name) node w with
    | (some err, w1) => (some err, w1)
    | (none, w1) => walkEntries dst rel rest w1
end

/-- Go `copyDir(src, dst)`, for the tree there is at `src`. -/
def copyDir (src : Node) (dst : Str) (w : World) : Option GoError × World :=
  walk dst ['.'] src w

mutual
/-- Go `processDirectory(dir, relpath)`, for the object `node` there is at
`dir`.  `os.ReadDir` fails on a file.  A recursive call that fails ends the
loop with its error. -/
def processDirectory : Str → Str → Node → World → Option GoError × World
  | dir, _, .file _ _, w =>
    (some (.errorf ("failed to rea directory ".toList ++ dir ++ ": ".toList ++
      (GoError.os "not a directory".toList).Error)), w)
  | dir, relpath, .dir mode entries, w =>
    processEntries dir relpath (.dir mode entries) entries w
/-- The loop of `processDirectory` over the entries still to be visited of
the directory `self`, which is at `dir`: a directory is gone into, a file
named `gno.mod` is parsed and makes the whole of `self` be copied to the
destination of its module path. -/
def processEntries : Str → Str → Node → Entries → World → Option GoError × World
  | _, _, _, .nil, w => (none, w)
  | dir, relpath, self, .cons name (.dir mode entries) rest, w =>
    match processDirectory (filepath.Join [dir, name]) (filepath.Join [relpath, name])
        (.dir mode entries) w with
    | (some err, w1) => (some err, w1)
    | (none, w1) => processEntries dir relpath self rest w1
  | dir, relpath, self, .cons name (.file data _) rest, w =>
    if name = gnoModFilename then
      match modfile.Parse (.ok data) with
      | .error err =>
        (some (.errorf ("failed to parse gno.mod file in ".toList ++ relpath ++ ": ".toList ++
          err.Error)), w)
      | .ok module =>
        match MkdirAll (destDir module.Path) 0o755 w with
        | (some err, w1) =>
          (some (.errorf ("failed to create destination directory ".toList ++
            destDir module.Path ++ ": ".toList ++ err.Error)), w1)
        | (none, w1) =>
          match copyDir self (destDir module.Path) w1 with
          | (some err, w2) =>
            (some (.errorf ("failed to copy directory ".toList ++ dir ++ " to ".toList ++
              destDir module.Path ++ ": ".toList ++ err.Error)), w2)
          | (none, w2) =>
            processEntries dir relpath self rest
              { w2 with stdout := w2.stdout ++ ["Package ".toList ++ module.Path ++
                " installed successfully to ".toList ++ destDir module.Path ++ "\n".toList] }
    else processEntries dir relpath self rest w
end

/-- The loop of `os.MkdirTemp("", "gnock-*")`: a random name is drawn until
there is no entry of that name in `os.TempDir()`, ten thousand times at most,
and the directory is made.  The name of the new entry is returned. -/
def mkdirTempLoop : Nat → World → Except GoError Str × World
  | 0, w => (.error (.os "file exists".toList), w)
  | tries + 1, w =>
    let name := "gnock-".toList ++ w.rand w.drawn
    let w1 := { w with drawn := w.drawn + 1 }
    match w1.tmp name with
    | some _ => mkdirTempLoop tries w1
    | none =>
      (.ok name, { w1 with tmp := fun n =>
        if n = name then some (.dir (applyUmask w.umask 0o700) .nil) else w1.tmp n })

/-- Go `os.MkdirTemp("", "gnock-*")`; the name of the new entry of
`os.TempDir()` is returned. -/
def MkdirTemp (w : World) : Except GoError Str × World :=
  if w.tempDirExists then mkdirTempLoop 10000 w
  else (.error (.os "no such file or directory".toList), w)

/-- The path of an entry of `os.TempDir()`. -/
def tempPath (w : World) (name : Str) : Str := w.tempDir ++ '/' :: name

/-- Whether the owner of an object with these permission bits may read it
(list it, for a directory). -/
def ownerRead (mode : Nat) : Bool := mode.testBit 8

/-- Whether the owner of an object with these permission bits may write it
(add and remove entries, for a directory). -/
def ownerWrite (mode : Nat) : Bool := mode.testBit 7

/-- Whether the owner of a directory with these permission bits may search it
(reach its entries). -/
def ownerSearch (mode : Nat) : Bool := mode.testBit 6

/-- Whether a process may unlink an entry of a directory with the permission
bits `parent`: the superuser always, the owner with write and search
permission. -/
def mayUnlink (super : Bool) (parent : Nat) : Bool :=
  super || (ownerWrite parent && ownerSearch parent)

mutual
/-- The recursion of `os.RemoveAll` at an entry of a directory with the
permission bits `parent`: what is left of the entry, `none` when it is
removed.  A file is unlinked when the directory allows it.  A directory that
can be reached and read has its entries removed as far as its own bits allow,
and is removed itself when it is left empty and its parent allows it; a
directory that cannot be read is removed only when it is empty. -/
def removeNode (super : Bool) : Nat → Node → Option Node
  | parent, .file data mode =>
    if mayUnlink super parent then none else some (.file data mode)
  | parent, .dir mode entries =>
    if super || ownerSearch parent then
      match (if super || ownerRead mode then removeEntries super mode entries else entries) with
      | .nil => if mayUnlink super parent then none else some (.dir mode .nil)
      | .cons name node rest => some (.dir mode (.cons name node rest))
    else some (.dir mode entries)
/-- The entries left in a directory with the permission bits `mode` after
`os.RemoveAll` has tried to remove each of them. -/
def removeEntries (super : Bool) : Nat → Entries → Entries
  | _, .nil => .nil
  | mode, .cons name node rest =>
    match removeNode super mode node with
    | none => removeEntries super mode rest
    | some left => .cons name left (removeEntries super mode rest)
end

/-- Go `os.RemoveAll`, for an entry of `os.TempDir()`, a directory in which
the process may make and remove entries: what can be removed is removed, and
an error is returned when something is left.  A missing entry is no error. -/
def RemoveAll (name : Str) (w : World) : Option GoError × World :=
  match w.tmp name with
  | none => (none, w)
  | some node =>
    match removeNode w.privileged 0o777 node with
    | none => (none, { w with tmp := fun n => if n = name then none else w.tmp n })
    | some left =>
      (some (.os "permission denied".toList),
        { w with tmp := fun n => if n = name then some left else w.tmp n })

/-- Go `GetPackage(url)`.  The repository fetcher `execCommand` is any
function of its three arguments that acts on the machine.  The deferred
`os.RemoveAll(tempDir)` runs on every return that follows the creation of the
scratch directory, and its error is dropped.  When the fetcher leaves nothing at the scratch path,
`os.ReadDir` fails in `processDirectory`. -/
def GetPackage (execCommand : Str → Str → Str → World → Option GoError × World)
    (url : Str) (w : World) : Option GoError × World :=
  let parts := Split '/' url
  if parts.length < 3 then (some ErrInvalidURL, w)
  else
    match MkdirTemp w with
    | (.error err, w1) =>
      (some (.errorf ("failed to create temp directory: ".toList ++ err.Error)), w1)
    | (.ok name, w1) =>
      let tempDir := tempPath w1 name
      match execCommand "clone".toList url tempDir w1 with
      | (some err, w2) =>
        (some (.errorf ("failed to clone repository: ".toList ++ err.Error)),
          (RemoveAll name w2).2)
      | (none, w2) =>
        match w2.tmp name with
        | some root =>
          match processDirectory tempDir [] root w2 with
          | (err, w3) => (err, (RemoveAll name w3).2)
        | none =>
          (some (.errorf ("failed to rea directory ".toList ++ tempDir ++ ": ".toList ++
            (GoError.os "no such file or directory".toList).Error)), (RemoveAll name w2).2)

/-! ## Source trees: names, manifests, paths -/

/-- The entries of a directory as a list. -/
def Entries.toList : Entries → List (Str × Node)
  | .nil => []
  | .cons name node rest => (name, node) :: rest.toList

/-- What a file system accepts as the name of an entry: not empty, without
slash, and neither `.` nor `..`. -/
def validName (name : Str) : Bool :=
  !(decide (name = [])) && !(decide ('/' ∈ name)) && !(decide (name = ['.'])) &&
    !(decide (name = filepath.dotdot))

mutual
/-- Whether every entry of the tree has a name a file system accepts. -/
def Node.validNames : Node → Bool
  | .file _ _ => true
  | .dir _ entries => entries.validNames
/-- Whether every entry, at any depth, has a name a file system accepts. -/
def Entries.validNames : Entries → Bool
  | .nil => true
  | .cons name node rest => validName name && node.validNames && rest.validNames
end

/-- Whether `modfile.Parse` fails on a manifest with this text. -/
def parseFails (data : Str) : Bool :=
  match modfile.Parse (.ok data) with
  | .error _ => true
  | .ok _ => false

mutual
/-- Whether some directory of the tree holds a file named `gno.mod` that
fails to parse. -/
def Node.hasBadManifest : Node → Bool
  | .file _ _ => false
  | .dir _ entries => entries.hasBadManifest
/-- Whether one of the entries is a file named `gno.mod` that fails to parse,
or a directory with such a file in it, at any depth. -/
def Entries.hasBadManifest : Entries → Bool
  | .nil => false
  | .cons name (.file data _) rest =>
    (decide (name = gnoModFilename) && parseFails data) || rest.hasBadManifest
  | .cons _ (.dir _ entries) rest => entries.hasBadManifest || rest.hasBadManifest
end

/-- `Reaches root names node`: going down from `root` along the entries named
`names` leads to `node`. -/
inductive Reaches : Node → List Str → Node → Prop where
  | here (node : Node) : Reaches node [] node
  | step (mode : Nat) (entries : Entries) (name : Str) (child : Node) (names : List Str)
      (node : Node) (hmem : (name, child) ∈ entries.toList) (hrest : Reaches child names node) :
      Reaches (.dir mode entries) (name :: names) node

/-- The error `processDirectory` makes for a manifest that fails to parse
with the error `perr` in the directory whose relative path is `relpath`. -/
def parseFailure (relpath : Str) (perr : GoError) : GoError :=
  .errorf ("failed to parse gno.mod file in ".toList ++ relpath ++ ": ".toList ++ perr.Error)

/-- One installation of `processDirectory`, for the package root `self` at
`dir` whose manifest declares `modulePath`: the destination directory is made,
`self` is copied to it and the package is reported. -/
def install (dir : Str) (self : Node) (modulePath : Str) (w : World) : Option GoError × World :=
  match MkdirAll (destDir modulePath) 0o755 w with
  | (some err, w1) =>
    (some (.errorf ("failed to create destination directory ".toList ++
      destDir modulePath ++ ": ".toList ++ err.Error)), w1)
  | (none, w1) =>
    match copyDir self (destDir modulePath) w1 with
    | (some err, w2) =>
      (some (.errorf ("failed to copy directory ".toList ++ dir ++ " to ".toList ++
        destDir modulePath ++ ": ".toList ++ err.Error)), w2)
    | (none, w2) =>
      (none, { w2 with stdout := w2.stdout ++ ["Package ".toList ++ modulePath ++
        " installed successfully to ".toList ++ destDir modulePath ++ "\n".toList] })

/-- Installations in turn, up to the first that fails. -/
def installAll : List (Str × Node × Str) → World → Option GoError × World
  | [], w => (none, w)
  | (dir, self, modulePath) :: rest, w =>
    match install dir self modulePath w with
    | (some err, w1) => (some err, w1)
    | (none, w1) => installAll rest w1

mutual
/-- The visit of `processDirectory` read off the tree alone: the package
roots it installs, in order, before it meets a manifest that fails to parse
(each with its path and module path), and that manifest, if there is one:
the names that lead to its directory from the root of the whole tree (`pre`
leads to this tree) with the error of `modfile.Parse`. -/
def Node.plan : Str → List Str → Node → List (Str × Node × Str) × Option (List Str × GoError)
  | _, _, .file _ _ => ([], none)
  | dir, pre, .dir mode entries => entries.plan dir pre (.dir mode entries)
/-- The visit of the entries still to be visited of the directory `self`. -/
def Entries.plan : Str → List Str → Node → Entries →
    List (Str × Node × Str) × Option (List Str × GoError)
  | _, _, _, .nil => ([], none)
  | dir, pre, self, .cons name (.dir mode entries) rest =>
    match (Node.dir mode entries).plan (filepath.Join [dir, name]) (pre ++ [name]) with
    | (steps, some bad) => (steps, some bad)
    | (steps, none) => ((steps ++ (rest.plan dir pre self).1), (rest.plan dir pre self).2)
  | dir, pre, self, .cons name (.file data _) rest =>
    if name = gnoModFilename then
      match modfile.Parse (.ok data) with
      | .error perr => ([], some (pre, perr))
      | .ok module => ((dir, self, module.Path) :: (rest.plan dir pre self).1,
          (rest.plan dir pre self).2)
    else rest.plan dir pre self
end

/-- The run of a visit: the installations in turn, and then the error for the
manifest that fails to parse, if there is one. -/
def runPlan (plan : List (Str × Node × Str) × Option (List Str × GoError)) (w : World) :
    Option GoError × World :=
  match installAll plan.1 w with
  | (some err, w1) => (some err, w1)
  | (none, w1) =>
    match plan.2 with
    | some (names, perr) => (some (parseFailure (strings.Join '/' names) perr), w1)
    | none => (none, w1)

/-- The path relative to the source that `copyDir` computes for the object the
names `pre` lead to from the source: `.` for the source itself. -/
def relOf (pre : List Str) : Str :=
  if pre = [] then ['.'] else strings.Join '/' pre

/-- The names of the entries of a directory. -/
def Entries.names : Entries → List Str
  | .nil => []
  | .cons name _ rest => name :: rest.names

mutual
/-- Whether no directory of the tree has two entries of the same name. -/
def Node.uniqueNames : Node → Bool
  | .file _ _ => true
  | .dir _ entries => entries.uniqueNames
/-- Whether the entries have different names, at any depth. -/
def Entries.uniqueNames : Entries → Bool
  | .nil => true
  | .cons name node rest =>
    !(decide (name ∈ rest.names)) && node.uniqueNames && rest.uniqueNames
end

mutual
/-- The files of a tree: the names that lead to each from the root, its
contents and its permission bits. -/
def Node.files : Node → List (List Str × Str × Nat)
  | .file data mode => [([], data, mode)]
  | .dir _ entries => entries.files
/-- The files there are under the entries of a directory. -/
def Entries.files : Entries → List (List Str × Str × Nat)
  | .nil => []
  | .cons name node rest =>
    node.files.map (fun f => (name :: f.1, f.2)) ++ rest.files
end

/-- The files of a tree with the absolute paths of their copies under the
directory `base`. -/
def copiesUnder (base : List Str) (files : List (List Str × Str × Nat)) :
    List (List Str × Str × Nat) :=
  files.map (fun f => (base ++ f.1, f.2))

/-- The permission bits of a file after `os.WriteFile` with the bits `perm`:
those the file had when it existed, else `perm` less the bits of the mask. -/
def modeAfter (umask : Nat) (old : Option Obj) (perm : Nat) : Nat :=
  match old with
  | some (.file _ mode) => mode
  | _ => applyUmask umask perm

/-- `Writes S fs after`: between the two states of the file system nothing
has changed but files of `S`, written at their paths, and directories that
have been made where there was nothing. -/
def Writes (S : List (List Str × Str × Nat)) (fs after : FS) : Prop :=
  ∀ q, after q = fs q ∨
    (∃ d m m', (q, d, m) ∈ S ∧ after q = some (.file d m')) ∨
    (fs q = none ∧ ∃ m, after q = some (.dir m))

/-- `Installed umask S fs after`: every file of `S` is at its path in the
state `after`, with its contents, and with the permission bits that writing
it to the state `fs` gives. -/
def Installed (umask : Nat) (S : List (List Str × Str × Nat)) (fs after : FS) : Prop :=
  ∀ q d m, (q, d, m) ∈ S → after q = some (.file d (modeAfter umask (fs q) m))

mutual
/-- The package roots of a tree, in the order `processDirectory` meets them:
the directories that hold a file named `gno.mod` that parses, each with the
module path of its manifest. -/
def Node.packages : Node → List (Node × Str)
  | .file _ _ => []
  | .dir mode entries => entries.packages (.dir mode entries)
/-- The package roots met from the entries still to be visited of the
directory `self`: those below the entries that are directories, and `self`
for an entry that is a file named `gno.mod` that parses. -/
def Entries.packages : Entries → Node → List (Node × Str)
  | .nil, _ => []
  | .cons _ (.dir mode entries) rest, self =>
    (Node.dir mode entries).packages ++ rest.packages self
  | .cons name (.file data _) rest, self =>
    if name = gnoModFilename then
      match modfile.Parse (.ok data) with
      | .ok module => (self, module.Path) :: rest.packages self
      | .error _ => rest.packages self
    else rest.packages self
end

/-- The files of package roots with the absolute paths of their copies, each
package under the destination directory of its module path. -/
def installCopies (cwd : List Str) : List (Node × Str) → List (List Str × Str × Nat)
  | [] => []
  | (root, modulePath) :: rest =>
    copiesUnder (resolve cwd (destDir modulePath)) root.files ++ installCopies cwd rest

/-- The lines `processDirectory` prints for package roots. -/
def installLines (pkgs : List (Node × Str)) : List Str :=
  pkgs.map (fun pkg => "Package ".toList ++ pkg.2 ++ " installed successfully to ".toList ++
    destDir pkg.2 ++ "\n".toList)

/-- Whether any two files of the list that have the same path have the same
contents. -/
def consistent (S : List (List Str × Str × Nat)) : Bool :=
  S.all (fun a => S.all (fun b => !(decide (a.1 = b.1)) || decide (a.2.1 = b.2.1)))

/-- `InstalledData S after`: every file of `S` is at its path in the state
`after`, with its contents. -/
def InstalledData (S : List (List Str × Str × Nat)) (after : FS) : Prop :=
  ∀ q d m, (q, d, m) ∈ S → ∃ m', after q = some (.file d m')

/-- `IsPackageRoot D P`: `D` is a directory that directly holds a file named
`gno.mod`, and that manifest parses to the module path `P`. -/
def IsPackageRoot (D : Node) (P : Str) : Prop :=
  ∃ mode entries data fmode, D = .dir mode entries ∧
    (gnoModFilename, Node.file data fmode) ∈ entries.toList ∧
    modfile.Parse (.ok data) = .ok ⟨P⟩

/-! ## Fixtures of `internal/fetch_test.go` -/

/-- A machine to run the tests on: the working directory `/work` is empty,
`/tmp` is empty. -/
def testWorld : World where
  cwd := ["work".toList]
  umask := 0o022
  privileged := false
  fs := fun q => if q = [] ∨ q = ["work".toList] then some (.dir 0o755) else none
  tempDir := "/tmp".toList
  tempDirExists := true
  tmp := fun _ => none
  rand := fun n => List.replicate (n + 1) '7'
  drawn := 0
  stdout := []

/-- The mock fetcher of the case `Git clone fails` of `TestGetPackage`. -/
def mockGitFails : Str → Str → Str → World → Option GoError × World :=
  fun _ _ _ w => (some (.errorf "git clone failed".toList), w)

/-- The repository of the case `Valid URL and successful clone` of
`TestGetPackage`: a manifest at the root. -/
def simpleRepo : Node :=
  .dir 0o700
    (.cons "gno.mod".toList (.file "module gno.land/r/demo/mypackage".toList 0o644) .nil)

/-- The directory `example_pkg/nested1` of `TestGetPackageComplexStructure`. -/
def mockNested1 : Node :=
  .dir 0o755
    (.cons "foo.gno".toList (.file "// foo.gno content".toList 0o644)
    (.cons "foo_test.gno".toList (.file "// foo_test.gno content".toList 0o644)
    (.cons "gno.mod".toList (.file "module gno.land/p/demo/nested1".toList 0o644) .nil)))

/-- The directory `example_pkg/nested2` of `TestGetPackageComplexStructure`. -/
def mockNested2 : Node :=
  .dir 0o755
    (.cons "bar.gno".toList (.file "// bar.gno content".toList 0o644)
    (.cons "bar_test.gno".toList (.file "// bar_test.gno content".toList 0o644)
    (.cons "gno.mod".toList (.file "module gno.land/r/nested2".toList 0o644) .nil)))

/-- A fetcher that fails after it has left, at the scratch path, a directory
`objects` that its owner may not write, with a file in it. -/
def mockGitLeavesReadOnly : Str → Str → Str → World → Option GoError × World :=
  fun _ _ dir w =>
    (some (.errorf "git clone failed".toList),
      { w with tmp := fun n =>
          if w.tempDir ++ '/' :: n = dir then
            some (.dir 0o700 (.cons "objects".toList
              (.dir 0o555 (.cons "pack".toList (.file "data".toList 0o444) .nil)) .nil))
          else w.tmp n })

/-- A source directory with a file that everyone may read and write. -/
def looseSource : Node :=
  .dir 0o755 (.cons "file1.txt".toList (.file "test content".toList 0o666) .nil)

/-- The repository of `TestGetPackageComplexStructure`. -/
def mockRepo : Node :=
  .dir 0o700 (.cons "example_pkg".toList (.dir 0o755
    (.cons "nested1".toList mockNested1 (.cons "nested2".toList mockNested2 .nil))) .nil)

/-- The mock fetcher of `TestGetPackageComplexStructure`: the repository is
put at the scratch path. -/
def mockGitClone (repo : Node) : Str → Str → Str → World → Option GoError × World :=
  fun _ _ dir w =>
    (none, { w with tmp := fun n => if tempPath w n = dir then some repo else w.tmp n })

/-- A repository with a well-formed manifest in `good` and a manifest without
module path in `pkg/bad`. -/
def badRepo : Node :=
  .dir 0o700
    (.cons "good".toList (.dir 0o755
      (.cons "gno.mod".toList (.file "module gno.land/r/good".toList 0o644) .nil))
    (.cons "pkg".toList (.dir 0o755
      (.cons "bad".toList (.dir 0o755
        (.cons "gno.mod".toList (.file "module".toList 0o644) .nil)) .nil)) .nil))

/-- The source directory of `TestCopyDir`. -/
def copySource : Node :=
  .dir 0o755
    (.cons "file1.txt".toList (.file "test content".toList 0o644)
    (.cons "file2.txt".toList (.file "test content".toList 0o644)
    (.cons "subdir".toList (.dir 0o755
      (.cons "file3.txt".toList (.file "test content".toList 0o644) .nil)) .nil)))

/-- A machine on which the destination directory `/work/dst` holds a file
`file1.txt` that only its owner may read and write. -/
def staleWorld : World :=
  { testWorld with
    fs := fun q =>
      if q = ["work".toList, "dst".toList, "file1.txt".toList] then
        some (.file "old".toList 0o600)
      else if q = ["work".toList, "dst".toList] then some (.dir 0o755)
      else testWorld.fs q }

/-- A repository with two package roots whose manifests declare the same
module path and differ by a final newline. -/
def twinRepo : Node :=
  .dir 0o700
    (.cons "a".toList (.dir 0o755
      (.cons "gno.mod".toList (.file "module x".toList 0o644) .nil))
    (.cons "b".toList (.dir 0o755
      (.cons "gno.mod".toList (.file "module x\n".toList 0o644) .nil)) .nil))

/-! ## Lemmas on strings and scanning -/

theorem utf8Len_replicate (n : Nat) (c : Char) :
    utf8Len (List.replicate n c) = n * runeLen c := by
  induction n with
  | zero => simp [utf8Len]
  | succ k ih => simp [List.replicate_succ, utf8Len, ih]; ring

theorem Split_ne_nil (sep : Char) (s : Str) : Split sep s ≠ [] := by
  cases s with
  | nil => simp [Split]
  | cons c cs =>
    simp only [Split]
    split
    · simp
    · cases Split sep cs <;> simp [consHead]

theorem Split_of_not_mem (sep : Char) (s : Str) (h : sep ∉ s) : Split sep s = [s] := by
  induction s with
  | nil => simp [Split]
  | cons c cs ih =>
    have hc : c ≠ sep := fun e => h (by simp [e])
    have hcs : sep ∉ cs := fun e => h (by simp [e])
    simp [Split, hc, ih hcs, consHead]

theorem Split_append_sep (sep : Char) (s t : Str) (h : sep ∉ s) :
    Split sep (s ++ sep :: t) = s :: Split sep t := by
  induction s with
  | nil => simp [Split]
  | cons c cs ih =>
    have hc : c ≠ sep := fun e => h (by simp [e])
    have hcs : sep ∉ cs := fun e => h (by simp [e])
    simp [Split, hc, ih hcs, consHead]

theorem dropWhile_isSpace_of_none (s : Str) (h : ∀ c ∈ s, isSpace c = false) :
    s.dropWhile isSpace = s := by
  cases s with
  | nil => rfl
  | cons c cs => simp [List.dropWhile, h c (by simp)]

theorem TrimSpace_of_none (s : Str) (h : ∀ c ∈ s, isSpace c = false) : TrimSpace s = s := by
  unfold TrimSpace
  rw [dropWhile_isSpace_of_none s h, dropWhile_isSpace_of_none s.reverse (by simpa using h)]
  simp

theorem dropCR_of_not_mem (s : Str) (h : '\r' ∉ s) : dropCR s = s := by
  unfold dropCR
  split
  · rename_i hl
    exact absurd (List.mem_of_getLast?_eq_some hl) h
  · rfl

theorem Fields_prefix (p r : Str) (hp : p ≠ []) (h : ∀ c ∈ p, isSpace c = false) :
    ∃ f fs, Fields (p ++ r) = (p ++ f) :: fs := by
  induction p with
  | nil => exact absurd rfl hp
  | cons c p ih =>
    have hc : isSpace c = false := h c (by simp)
    cases p with
    | nil =>
      cases he : fieldEnds r with
      | true => exact ⟨[], Fields r, by simp [Fields, hc, he]⟩
      | false =>
        cases hF : Fields r with
        | nil => exact ⟨[], [], by simp [Fields, hc, he, hF, consHead]⟩
        | cons f fs => exact ⟨f, fs, by simp [Fields, hc, he, hF, consHead]⟩
    | cons c2 p =>
      have hc2 : isSpace c2 = false := h c2 (by simp)
      obtain ⟨f, fs, hF⟩ := ih (by simp) (fun x hx => h x (List.mem_cons_of_mem _ hx))
      refine ⟨f, fs, ?_⟩
      have he : fieldEnds (c2 :: p ++ r) = false := by simp [fieldEnds, hc2]
      rw [List.cons_append, Fields, if_neg (by simp [hc]), he, hF]
      simp [consHead]

theorem HasPrefix_iff (s pre : Str) : HasPrefix s pre = true ↔ ∃ r, s = pre ++ r := by
  unfold HasPrefix
  rw [List.isPrefixOf_iff_prefix]
  constructor
  · rintro ⟨r, hr⟩; exact ⟨r, hr.symm⟩
  · rintro ⟨r, hr⟩; exact ⟨r, hr.symm⟩

namespace modfile

theorem moduleKeyword_no_space : ∀ c ∈ moduleKeyword, isSpace c = false := by decide

/-- The scan passes over short lines that do not start with the keyword. -/
theorem parseLines_skip (pre rest : List Str)
    (hpre : ∀ x ∈ pre, HasPrefix (TrimSpace (dropCR x)) moduleKeyword = false)
    (hlen : ∀ x ∈ pre, utf8Len x < MaxScanTokenSize) :
    parseLines (pre ++ rest) = parseLines rest := by
  induction pre with
  | nil => rfl
  | cons x xs ih =>
    have h1 : ¬ MaxScanTokenSize ≤ utf8Len x := Nat.not_le.mpr (hlen x (by simp))
    have h2 := hpre x (by simp)
    simp only [List.cons_append, parseLines, h1, h2, if_false]
    exact ih (fun y hy => hpre y (List.mem_cons_of_mem _ hy))
      (fun y hy => hlen y (List.mem_cons_of_mem _ hy))

/-- What `parseLines` does at a short line that starts with the keyword. -/
theorem parseLines_declaration (l : Str) (rest : List Str)
    (hlen : utf8Len l < MaxScanTokenSize)
    (hl : HasPrefix (TrimSpace (dropCR l)) moduleKeyword = true) :
    parseLines (l :: rest) =
      if (Fields (TrimSpace (dropCR l))).length ≠ 2 then
        .error (.errorf ("invalid module declaration: ".toList ++ TrimSpace (dropCR l)))
      else .ok ⟨(Fields (TrimSpace (dropCR l))).getD 1 []⟩ := by
  have h1 : ¬ MaxScanTokenSize ≤ utf8Len l := Nat.not_le.mpr hlen
  simp only [parseLines, h1, hl, if_false, if_true]

/-- A raw line that fills the scanner's buffer ends the parse with `ErrTooLong`. -/
theorem parseLines_too_long (l : Str) (rest : List Str)
    (hlen : MaxScanTokenSize ≤ utf8Len l) :
    parseLines (l :: rest) = .error .ErrTooLong := by
  simp only [parseLines, hlen, if_true]

/-- A successful scan stopped at a declaration line with two fields. -/
theorem parseLines_ok (ls : List Str) (m : Module) (h : parseLines ls = .ok m) :
    ∃ pre l post a, ls = pre ++ l :: post ∧
      (∀ x ∈ pre, HasPrefix (TrimSpace (dropCR x)) moduleKeyword = false) ∧
      HasPrefix (TrimSpace (dropCR l)) moduleKeyword = true ∧
      Fields (TrimSpace (dropCR l)) = [a, m.Path] := by
  induction ls with
  | nil => simp [parseLines] at h
  | cons x xs ih =>
    by_cases h1 : MaxScanTokenSize ≤ utf8Len x
    · rw [parseLines_too_long x xs h1] at h; cases h
    · cases h2 : HasPrefix (TrimSpace (dropCR x)) moduleKeyword with
      | true =>
        rw [parseLines_declaration x xs (Nat.not_le.mp h1) h2] at h
        by_cases h3 : (Fields (TrimSpace (dropCR x))).length ≠ 2
        · rw [if_pos h3] at h; cases h
        · rw [if_neg h3] at h
          have h4 : (Fields (TrimSpace (dropCR x))).length = 2 := not_not.mp h3
          obtain ⟨a, b, hab⟩ := List.length_eq_two.mp h4
          refine ⟨[], x, xs, a, rfl, by simp, h2, ?_⟩
          rw [hab] at h
          cases h
          simpa using hab
      | false =>
        have h5 : parseLines (x :: xs) = parseLines xs := by
          simp only [parseLines, h1, h2, if_false]
          rfl
        rw [h5] at h
        obtain ⟨pre, l, post, a, e, hp, hl, hf⟩ := ih h
        refine ⟨x :: pre, l, post, a, by simp [e], ?_, hl, hf⟩
        intro y hy
        rcases List.mem_cons.mp hy with rfl | hy
        · exact h2
        · exact hp y hy

end modfile

/-! ## Lemmas on paths -/

theorem Split_append (sep : Char) (s t : Str) :
    Split sep (s ++ sep :: t) = Split sep s ++ Split sep t := by
  induction s with
  | nil => simp [Split]
  | cons c cs ih =>
    by_cases hc : c = sep
    · simp [Split, hc, ih]
    · cases h : Split sep cs with
      | nil => exact absurd h (Split_ne_nil sep cs)
      | cons l ls =>
        have e1 : Split sep (c :: (cs ++ sep :: t)) = consHead c (Split sep (cs ++ sep :: t)) := by
          simp only [Split, hc, if_false]
        have e2 : Split sep (c :: cs) = consHead c (Split sep cs) := by
          simp only [Split, hc, if_false]
        rw [List.cons_append, e1, e2, ih, h]
        rfl

theorem not_mem_of_mem_Split (sep : Char) (s x : Str) (hx : x ∈ Split sep s) : sep ∉ x := by
  induction s generalizing x with
  | nil =>
    simp [Split] at hx
    simp [hx]
  | cons c cs ih =>
    by_cases hc : c = sep
    · simp only [Split, hc, if_true, List.mem_cons] at hx
      rcases hx with rfl | hx
      · simp
      · exact ih x hx
    · simp only [Split, hc, if_false] at hx
      cases h : Split sep cs with
      | nil => exact absurd h (Split_ne_nil sep cs)
      | cons l ls =>
        rw [h] at hx ih
        simp only [consHead, List.mem_cons] at hx
        rcases hx with rfl | hx
        · have := ih l (by simp)
          simp only [List.mem_cons, not_or]
          exact ⟨fun e => hc e.symm, this⟩
        · exact ih x (by simp [hx])

theorem Split_Join (sep : Char) (es : List Str) (hne : es ≠ []) (h : ∀ e ∈ es, sep ∉ e) :
    Split sep (strings.Join sep es) = es := by
  induction es with
  | nil => exact absurd rfl hne
  | cons e es ih =>
    cases es with
    | nil => simpa [strings.Join] using Split_of_not_mem sep e (h e (by simp))
    | cons e2 es =>
      have h1 : strings.Join sep (e :: e2 :: es) = e ++ sep :: strings.Join sep (e2 :: es) := rfl
      rw [h1, Split_append, Split_of_not_mem sep e (h e (by simp)),
        ih (by simp) (fun x hx => h x (List.mem_cons_of_mem _ hx))]
      rfl

namespace filepath

theorem cleanStep_skip (rooted : Bool) (out : List Str) (seg : Str)
    (h : seg = [] ∨ seg = ['.']) : cleanStep rooted out seg = out := by
  unfold cleanStep; rw [if_pos h]

theorem cleanStep_keep (rooted : Bool) (out : List Str) (seg : Str)
    (h : ¬ (seg = [] ∨ seg = ['.'])) (hd : seg ≠ dotdot) :
    cleanStep rooted out seg = seg :: out := by
  unfold cleanStep; rw [if_neg h, if_neg hd]

theorem cleanLoop_no_dotdot (rooted : Bool) (segs out : List Str) (h : dotdot ∉ segs) :
    cleanLoop rooted segs out = (segs.filter keeps).reverse ++ out := by
  induction segs generalizing out with
  | nil => simp [cleanLoop]
  | cons seg segs ih =>
    have h1 : seg ≠ dotdot := fun e => h (by simp [e])
    have h2 : dotdot ∉ segs := fun e => h (by simp [e])
    have ih2 := fun o => ih o h2
    unfold cleanLoop at ih2 ⊢
    by_cases hk : seg = [] ∨ seg = ['.']
    · rw [List.foldl_cons, cleanStep_skip _ _ _ hk, ih2 out]
      simp [List.filter, keeps, hk]
    · rw [List.foldl_cons, cleanStep_keep _ _ _ hk h1, ih2]
      simp [List.filter, keeps, hk]

end filepath

/-! ## Paths made of valid names -/

theorem validName_iff (name : Str) :
    validName name = true ↔
      name ≠ [] ∧ '/' ∉ name ∧ name ≠ ['.'] ∧ name ≠ filepath.dotdot := by
  simp [validName, and_assoc]

theorem strings_Join_append_singleton (sep : Char) (pre : List Str) (name : Str)
    (h : pre ≠ []) :
    strings.Join sep (pre ++ [name]) = strings.Join sep pre ++ sep :: name := by
  induction pre with
  | nil => exact absurd rfl h
  | cons e es ih =>
    cases es with
    | nil => rfl
    | cons e2 es =>
      have h1 : strings.Join sep (e :: e2 :: es) = e ++ sep :: strings.Join sep (e2 :: es) := rfl
      have h2 : strings.Join sep (e :: (e2 :: es ++ [name]))
          = e ++ sep :: strings.Join sep (e2 :: es ++ [name]) := rfl
      rw [List.cons_append, h2, ih (by simp), h1]
      simp

theorem strings_Join_head (sep : Char) (e : Str) (es : List Str) (he : e ≠ []) :
    (strings.Join sep (e :: es)).head? = e.head? := by
  cases es with
  | nil => rfl
  | cons e2 es =>
    have h1 : strings.Join sep (e :: e2 :: es) = e ++ sep :: strings.Join sep (e2 :: es) := rfl
    rw [h1]
    cases e with
    | nil => exact absurd rfl he
    | cons c cs => rfl

theorem Clean_strings_Join (names : List Str) (hne : names ≠ [])
    (hv : ∀ n ∈ names, validName n = true) :
    filepath.Clean (strings.Join '/' names) = strings.Join '/' names := by
  have hs : Split '/' (strings.Join '/' names) = names :=
    Split_Join '/' names hne (fun e he => ((validName_iff e).mp (hv e he)).2.1)
  have hd : filepath.dotdot ∉ names := fun hm => ((validName_iff _).mp (hv _ hm)).2.2.2 rfl
  have hk : names.filter filepath.keeps = names := by
    rw [List.filter_eq_self]
    intro n hn
    have := (validName_iff n).mp (hv n hn)
    simp [filepath.keeps, this.1, this.2.2.1]
  have hr : ((strings.Join '/' names).head? = some '/') = False := by
    cases names with
    | nil => exact absurd rfl hne
    | cons e es =>
      have he := (validName_iff e).mp (hv e (by simp))
      rw [strings_Join_head '/' e es he.1]
      cases e with
      | nil => exact absurd rfl he.1
      | cons c cs =>
        have : c ≠ '/' := fun x => he.2.1 (by simp [x])
        simp [this]
  unfold filepath.Clean
  simp only [hr, hs, filepath.cleanLoop_no_dotdot _ _ _ hd, hk, if_false, List.append_nil,
    List.reverse_reverse]
  rw [if_neg hne]

theorem strings_Join_ne_nil (sep : Char) (names : List Str) (hne : names ≠ [])
    (hv : ∀ n ∈ names, n ≠ []) : strings.Join sep names ≠ [] := by
  cases names with
  | nil => exact absurd rfl hne
  | cons e es =>
    intro h
    have := strings_Join_head sep e es (hv e (by simp))
    rw [h] at this
    cases e with
    | nil => exact hv [] (by simp) rfl
    | cons c cs => simp at this

/-- The relative path `processDirectory` passes down: joining the slash-joined
names `pre` with one more name gives the slash-joined names. -/
theorem Join_relpath (pre : List Str) (name : Str)
    (hpre : ∀ n ∈ pre, validName n = true) (hname : validName name = true) :
    filepath.Join [strings.Join '/' pre, name] = strings.Join '/' (pre ++ [name]) := by
  have hn := (validName_iff name).mp hname
  have hall : ∀ n ∈ pre ++ [name], validName n = true := by
    intro n hn'
    rcases List.mem_append.mp hn' with h | h
    · exact hpre n h
    · rw [List.mem_singleton.mp h]; exact hname
  by_cases hp : pre = []
  · subst hp
    have e1 : filepath.Join [strings.Join '/' [], name] = filepath.Clean name := by
      cases name with
      | nil => exact absurd rfl hn.1
      | cons c cs => rfl
    rw [e1]
    exact Clean_strings_Join [name] (by simp) (by simpa using hname)
  · have hr : strings.Join '/' pre ≠ [] :=
      strings_Join_ne_nil '/' pre hp (fun n h => ((validName_iff n).mp (hpre n h)).1)
    have e1 : filepath.Join [strings.Join '/' pre, name]
        = filepath.Clean (strings.Join '/' pre ++ '/' :: name) := by
      cases h : strings.Join '/' pre with
      | nil => exact absurd h hr
      | cons c cs => rfl
    rw [e1, ← strings_Join_append_singleton '/' pre name hp]
    exact Clean_strings_Join _ (by simp) hall

/-! ## Cleaning a path does not change what it names -/

theorem resolveStep_skip (here : List Str) (seg : Str) (h : seg = [] ∨ seg = ['.']) :
    resolveStep here seg = here := by
  unfold resolveStep; rw [if_pos h]

theorem resolveStep_dotdot (here : List Str) :
    resolveStep here filepath.dotdot = here.tail := by
  unfold resolveStep
  rw [if_neg (by decide), if_pos rfl]

theorem resolveStep_keep (here : List Str) (seg : Str) (h : ¬ (seg = [] ∨ seg = ['.']))
    (hd : seg ≠ filepath.dotdot) : resolveStep here seg = seg :: here := by
  unfold resolveStep; rw [if_neg h, if_neg hd]

theorem cleanStep_spec (rooted : Bool) (init out : List Str) (seg : Str)
    (hroot : rooted = true → init = [])
    (hout : ∀ x ∈ out, ¬ (x = [] ∨ x = ['.'])) :
    (filepath.cleanStep rooted out seg).reverse.foldl resolveStep init
        = resolveStep (out.reverse.foldl resolveStep init) seg ∧
      (∀ x ∈ filepath.cleanStep rooted out seg, ¬ (x = [] ∨ x = ['.'])) ∧
      (∀ x ∈ filepath.cleanStep rooted out seg, x ∈ out ∨ x = seg) := by
  by_cases hk : seg = [] ∨ seg = ['.']
  · rw [filepath.cleanStep_skip _ _ _ hk, resolveStep_skip _ _ hk]
    exact ⟨rfl, hout, fun x hx => Or.inl hx⟩
  · by_cases hd : seg = filepath.dotdot
    · subst hd
      rw [resolveStep_dotdot]
      cases out with
      | nil =>
        cases rooted with
        | true =>
          have : filepath.cleanStep true [] filepath.dotdot = [] := rfl
          rw [this, hroot rfl]
          exact ⟨rfl, by simp, by simp⟩
        | false =>
          have : filepath.cleanStep false [] filepath.dotdot = [filepath.dotdot] := rfl
          rw [this]
          refine ⟨?_, ?_, by simp⟩
          · simp [resolveStep_dotdot]
          · intro x hx
            rw [List.mem_singleton.mp hx]
            decide
      | cons top below =>
        by_cases ht : top = filepath.dotdot
        · have : filepath.cleanStep rooted (top :: below) filepath.dotdot
              = filepath.dotdot :: top :: below := by
            unfold filepath.cleanStep
            rw [if_neg (by decide), if_pos rfl]
            simp [ht]
          rw [this]
          refine ⟨?_, ?_, ?_⟩
          · rw [List.reverse_cons, List.foldl_append]
            simp [resolveStep_dotdot]
          · intro x hx
            rcases List.mem_cons.mp hx with rfl | hx
            · decide
            · exact hout x hx
          · intro x hx
            rcases List.mem_cons.mp hx with rfl | hx
            · exact Or.inr rfl
            · exact Or.inl hx
        · have : filepath.cleanStep rooted (top :: below) filepath.dotdot = below := by
            unfold filepath.cleanStep
            rw [if_neg (by decide), if_pos rfl]
            simp [ht]
          rw [this]
          refine ⟨?_, fun x hx => hout x (List.mem_cons_of_mem _ hx),
            fun x hx => Or.inl (List.mem_cons_of_mem _ hx)⟩
          rw [List.reverse_cons, List.foldl_append]
          simp [resolveStep_keep _ top (hout top (by simp)) ht]
    · rw [filepath.cleanStep_keep _ _ _ hk hd]
      refine ⟨?_, ?_, ?_⟩
      · rw [List.reverse_cons, List.foldl_append]
        rfl
      · intro x hx
        rcases List.mem_cons.mp hx with rfl | hx
        · exact hk
        · exact hout x hx
      · intro x hx
        rcases List.mem_cons.mp hx with rfl | hx
        · exact Or.inr rfl
        · exact Or.inl hx

theorem cleanLoop_spec (rooted : Bool) (init : List Str) (hroot : rooted = true → init = [])
    (segs out : List Str) (hout : ∀ x ∈ out, ¬ (x = [] ∨ x = ['.'])) :
    (filepath.cleanLoop rooted segs out).reverse.foldl resolveStep init
        = segs.foldl resolveStep (out.reverse.foldl resolveStep init) ∧
      (∀ x ∈ filepath.cleanLoop rooted segs out, ¬ (x = [] ∨ x = ['.'])) ∧
      (∀ x ∈ filepath.cleanLoop rooted segs out, x ∈ out ∨ x ∈ segs) := by
  induction segs generalizing out with
  | nil => exact ⟨rfl, hout, fun x hx => Or.inl hx⟩
  | cons seg segs ih =>
    obtain ⟨h1, h2, h3⟩ := cleanStep_spec rooted init out seg hroot hout
    obtain ⟨i1, i2, i3⟩ := ih (filepath.cleanStep rooted out seg) h2
    have e : filepath.cleanLoop rooted (seg :: segs) out
        = filepath.cleanLoop rooted segs (filepath.cleanStep rooted out seg) := rfl
    rw [e]
    refine ⟨?_, i2, ?_⟩
    · rw [i1, h1]; rfl
    · intro x hx
      rcases i3 x hx with hx | hx
      · rcases h3 x hx with hx | hx
        · exact Or.inl hx
        · exact Or.inr (by simp [hx])
      · exact Or.inr (List.mem_cons_of_mem _ hx)

theorem strings_Join_head_ne_slash (o : List Str) (hne : o ≠ [])
    (hk : ∀ x ∈ o, ¬ (x = [] ∨ x = ['.'])) (hs : ∀ x ∈ o, '/' ∉ x) :
    ¬ (strings.Join '/' o).head? = some '/' := by
  cases o with
  | nil => exact absurd rfl hne
  | cons e es =>
    have he : e ≠ [] := fun h => hk e (by simp) (Or.inl h)
    rw [strings_Join_head '/' e es he]
    cases e with
    | nil => exact absurd rfl he
    | cons c cs =>
      have : c ≠ '/' := fun x => hs (c :: cs) (by simp) (by simp [x])
      simp [this]

/-- The path `filepath.Clean` returns names the same place as the path it is
given. -/
theorem resolve_Clean (cwd : List Str) (s : Str) :
    resolve cwd (filepath.Clean s) = resolve cwd s := by
  by_cases hr : s.head? = some '/'
  · obtain ⟨h1, h2, h3⟩ := cleanLoop_spec true [] (fun _ => rfl) (Split '/' s) [] (by simp)
    have hs : ∀ x ∈ (filepath.cleanLoop true (Split '/' s) []).reverse, '/' ∉ x := by
      intro x hx
      rcases h3 x (List.mem_reverse.mp hx) with h | h
      · simp at h
      · exact not_mem_of_mem_Split '/' s x h
    have hc : filepath.Clean s
        = '/' :: strings.Join '/' (filepath.cleanLoop true (Split '/' s) []).reverse := by
      unfold filepath.Clean
      simp [hr]
    rw [hc]
    unfold resolve
    rw [if_pos (by simp), if_pos hr]
    congr 1
    have e1 : Split '/' ('/' :: strings.Join '/' (filepath.cleanLoop true (Split '/' s) []).reverse)
        = [] :: Split '/' (strings.Join '/' (filepath.cleanLoop true (Split '/' s) []).reverse) := by
      simp [Split]
    rw [e1, List.foldl_cons, resolveStep_skip _ _ (Or.inl rfl)]
    by_cases ho : (filepath.cleanLoop true (Split '/' s) []).reverse = []
    · rw [ho] at h1 ⊢
      simp only [List.foldl_nil, List.reverse_nil] at h1
      rw [← h1]
      rfl
    · rw [Split_Join '/' _ ho hs, h1]
      rfl
  · obtain ⟨h1, h2, h3⟩ := cleanLoop_spec false cwd.reverse (fun h => by simp at h)
      (Split '/' s) [] (by simp)
    have hs : ∀ x ∈ (filepath.cleanLoop false (Split '/' s) []).reverse, '/' ∉ x := by
      intro x hx
      rcases h3 x (List.mem_reverse.mp hx) with h | h
      · simp at h
      · exact not_mem_of_mem_Split '/' s x h
    have hk : ∀ x ∈ (filepath.cleanLoop false (Split '/' s) []).reverse,
        ¬ (x = [] ∨ x = ['.']) := fun x hx => h2 x (List.mem_reverse.mp hx)
    by_cases ho : (filepath.cleanLoop false (Split '/' s) []).reverse = []
    · have hc : filepath.Clean s = ['.'] := by
        unfold filepath.Clean
        simp [hr, ho]
      rw [hc]
      unfold resolve
      rw [if_neg hr, if_neg (by simp)]
      congr 1
      rw [ho] at h1
      simp only [List.foldl_nil, List.reverse_nil] at h1
      rw [← h1]
      rfl
    · have hc : filepath.Clean s
          = strings.Join '/' (filepath.cleanLoop false (Split '/' s) []).reverse := by
        unfold filepath.Clean
        simp [hr, ho]
      rw [hc]
      unfold resolve
      rw [if_neg hr, if_neg (strings_Join_head_ne_slash _ ho hk hs), Split_Join '/' _ ho hs, h1]
      rfl

/-! ## The mirrored paths of `copyDir` -/

theorem validName_keeps (n : Str) (h : validName n = true) : ¬ (n = [] ∨ n = ['.']) := by
  have := (validName_iff n).mp h
  exact fun x => x.elim this.1 this.2.2.1

theorem foldl_resolveStep_valid (names here : List Str)
    (hv : ∀ n ∈ names, validName n = true) :
    names.foldl resolveStep here = names.reverse ++ here := by
  induction names generalizing here with
  | nil => rfl
  | cons n ns ih =>
    have hn := (validName_iff n).mp (hv n (by simp))
    rw [List.foldl_cons, resolveStep_keep _ n (validName_keeps n (hv n (by simp))) hn.2.2.2,
      ih _ (fun x hx => hv x (List.mem_cons_of_mem _ hx))]
    simp

theorem strings_Join_ne_dot (pre : List Str) (hne : pre ≠ [])
    (hv : ∀ n ∈ pre, validName n = true) : strings.Join '/' pre ≠ ['.'] := by
  intro h
  have hs := Split_Join '/' pre hne (fun e he => ((validName_iff e).mp (hv e he)).2.1)
  rw [h] at hs
  have h1 : Split '/' ['.'] = [['.']] := by decide
  rw [h1] at hs
  have := hv ['.'] (by rw [← hs]; simp)
  exact absurd this (by decide)

theorem childRel_relOf (pre : List Str) (name : Str) (hv : ∀ n ∈ pre, validName n = true) :
    childRel (relOf pre) name = relOf (pre ++ [name]) := by
  by_cases hp : pre = []
  · subst hp
    simp [childRel, relOf, strings.Join]
  · have h1 : relOf pre = strings.Join '/' pre := by simp [relOf, hp]
    have h2 : relOf (pre ++ [name]) = strings.Join '/' (pre ++ [name]) := by simp [relOf]
    rw [h1, h2, strings_Join_append_singleton '/' pre name hp]
    unfold childRel
    rw [if_neg (strings_Join_ne_dot pre hp hv)]

theorem foldl_resolveStep_relOf (pre here : List Str) (hv : ∀ n ∈ pre, validName n = true) :
    (Split '/' (relOf pre)).foldl resolveStep here = pre.reverse ++ here := by
  by_cases hp : pre = []
  · subst hp
    have : Split '/' (relOf []) = [['.']] := by decide
    rw [this]
    simp [resolveStep_skip]
  · have h1 : relOf pre = strings.Join '/' pre := by simp [relOf, hp]
    rw [h1, Split_Join '/' pre hp (fun e he => ((validName_iff e).mp (hv e he)).2.1)]
    exact foldl_resolveStep_valid pre here hv

theorem relOf_head (pre : List Str) (hv : ∀ n ∈ pre, validName n = true) :
    ¬ (relOf pre).head? = some '/' := by
  by_cases hp : pre = []
  · subst hp
    decide
  · have h1 : relOf pre = strings.Join '/' pre := by simp [relOf, hp]
    rw [h1]
    exact strings_Join_head_ne_slash pre hp (fun x hx => validName_keeps x (hv x hx))
      (fun e he => ((validName_iff e).mp (hv e he)).2.1)

theorem relOf_ne_nil (pre : List Str) (hv : ∀ n ∈ pre, validName n = true) : relOf pre ≠ [] := by
  by_cases hp : pre = []
  · subst hp
    decide
  · have h1 : relOf pre = strings.Join '/' pre := by simp [relOf, hp]
    rw [h1]
    exact strings_Join_ne_nil '/' pre hp (fun n h => ((validName_iff n).mp (hv n h)).1)

theorem resolve_nil (cwd : List Str) : resolve cwd [] = cwd := by
  unfold resolve
  have : Split '/' [] = [[]] := rfl
  rw [this]
  simp [resolveStep_skip]

/-- The mirrored path `filepath.Join(dst, relPath)` of `copyDir` names the
place the names lead to from the place `dst` names. -/
theorem resolve_Join_relOf (cwd : List Str) (dst : Str) (pre : List Str)
    (hv : ∀ n ∈ pre, validName n = true) :
    resolve cwd (filepath.Join [dst, relOf pre]) = resolve cwd dst ++ pre := by
  cases dst with
  | nil =>
    have e1 : filepath.Join [[], relOf pre] = filepath.Clean (relOf pre) := by
      cases h : relOf pre with
      | nil => exact absurd h (relOf_ne_nil pre hv)
      | cons c cs => rfl
    rw [e1, resolve_Clean, resolve_nil]
    unfold resolve
    rw [if_neg (relOf_head pre hv), foldl_resolveStep_relOf pre _ hv]
    simp
  | cons c cs =>
    have e1 : filepath.Join [c :: cs, relOf pre]
        = filepath.Clean ((c :: cs) ++ '/' :: relOf pre) := rfl
    rw [e1, resolve_Clean]
    unfold resolve
    rw [Split_append, List.foldl_append, foldl_resolveStep_relOf pre _ hv]
    simp

/-! ## Changes of the file system -/

theorem Writes_refl (S : List (List Str × Str × Nat)) (fs : FS) : Writes S fs fs :=
  fun _ => Or.inl rfl

theorem Writes_trans (S T : List (List Str × Str × Nat)) (a b c : FS)
    (h1 : Writes S a b) (h2 : Writes T b c) : Writes (S ++ T) a c := by
  intro q
  rcases h2 q with h | ⟨d, m, m', hm, h⟩ | ⟨hn, m, h⟩
  · rcases h1 q with g | ⟨d, m, m', hm, g⟩ | ⟨gn, m, g⟩
    · exact Or.inl (h.trans g)
    · exact Or.inr (Or.inl ⟨d, m, m', List.mem_append_left _ hm, h.trans g⟩)
    · exact Or.inr (Or.inr ⟨gn, m, h.trans g⟩)
  · exact Or.inr (Or.inl ⟨d, m, m', List.mem_append_right _ hm, h⟩)
  · rcases h1 q with g | ⟨d, m1, m', hm, g⟩ | ⟨gn, m1, g⟩
    · exact Or.inr (Or.inr ⟨g ▸ hn, m, h⟩)
    · rw [g] at hn; cases hn
    · rw [g] at hn; cases hn

theorem modeAfter_of_Writes (umask : Nat) (S : List (List Str × Str × Nat)) (a b : FS)
    (h : Writes S a b) (q : List Str) (hq : ∀ d m, (q, d, m) ∉ S) (perm : Nat) :
    modeAfter umask (b q) perm = modeAfter umask (a q) perm := by
  rcases h q with g | ⟨d, m, m', hm, g⟩ | ⟨gn, m, g⟩
  · rw [g]
  · exact absurd hm (hq d m)
  · rw [g, gn]; rfl

theorem Installed_trans (umask : Nat) (S T : List (List Str × Str × Nat)) (a b c : FS)
    (hS : Installed umask S a b) (wS : Writes S a b)
    (hT : Installed umask T b c) (wT : Writes T b c)
    (hdisj : ∀ q d m d' m', (q, d, m) ∈ S → (q, d', m') ∉ T) :
    Installed umask (S ++ T) a c := by
  intro q d m hm
  rcases List.mem_append.mp hm with hm | hm
  · have hb := hS q d m hm
    rcases wT q with g | ⟨d', m1, m', hm', g⟩ | ⟨gn, m1, g⟩
    · rw [g, hb]
    · exact absurd hm' (hdisj q d m d' m1 hm)
    · rw [hb] at gn; cases gn
  · rw [hT q d m hm]
    congr 2
    exact modeAfter_of_Writes umask S a b wS q
      (fun d' m' hm' => hdisj q d' m' d m hm' hm) m

theorem mkdirAllFrom_writes (umask perm : Nat) (todo done : List Str) (fs : FS) :
    Writes [] fs (mkdirAllFrom umask perm todo done fs).2 := by
  induction todo generalizing done fs with
  | nil => exact Writes_refl _ _
  | cons name todo ih =>
    rw [mkdirAllFrom]
    split
    · exact ih _ _
    · exact Writes_refl _ _
    · rename_i hnone
      have h1 : Writes [] fs (fs.set (done ++ [name]) (.dir (applyUmask umask perm))) := by
        intro q
        by_cases hq : q = done ++ [name]
        · subst hq
          exact Or.inr (Or.inr ⟨hnone, applyUmask umask perm, by simp [FS.set]⟩)
        · exact Or.inl (by simp [FS.set, hq])
      exact Writes_trans [] [] _ _ _ h1 (ih _ _)

theorem MkdirAll_spec (path : Str) (perm : Nat) (w : World) :
    (MkdirAll path perm w).2.cwd = w.cwd ∧ (MkdirAll path perm w).2.umask = w.umask ∧
      (MkdirAll path perm w).2.stdout = w.stdout ∧
      Writes [] w.fs (MkdirAll path perm w).2.fs :=
  ⟨rfl, rfl, rfl, mkdirAllFrom_writes _ _ _ _ _⟩

theorem WriteFile_spec (path data : Str) (perm : Nat) (w w' : World)
    (h : WriteFile path data perm w = (none, w')) :
    w'.cwd = w.cwd ∧ w'.umask = w.umask ∧ w'.stdout = w.stdout ∧
      Writes [(resolve w.cwd path, data, perm)] w.fs w'.fs ∧
      Installed w.umask [(resolve w.cwd path, data, perm)] w.fs w'.fs := by
  unfold WriteFile at h
  simp only at h
  split at h
  · simp at h
  · rename_i d0 m0 hold
    simp only [Prod.mk.injEq, true_and] at h
    subst h
    refine ⟨rfl, rfl, rfl, ?_, ?_⟩
    · intro q
      by_cases hq : q = resolve w.cwd path
      · subst hq
        exact Or.inr (Or.inl ⟨data, perm, m0, by simp, by simp [FS.set]⟩)
      · exact Or.inl (by simp [FS.set, hq])
    · intro q d m hm
      simp only [List.mem_singleton, Prod.mk.injEq] at hm
      obtain ⟨rfl, rfl, rfl⟩ := hm
      simp [FS.set, hold, modeAfter]
  · rename_i hold
    split at h
    · simp only [Prod.mk.injEq, true_and] at h
      subst h
      refine ⟨rfl, rfl, rfl, ?_, ?_⟩
      · intro q
        by_cases hq : q = resolve w.cwd path
        · subst hq
          exact Or.inr (Or.inl ⟨data, perm, applyUmask w.umask perm, by simp, by simp [FS.set]⟩)
        · exact Or.inl (by simp [FS.set, hq])
      · intro q d m hm
        simp only [List.mem_singleton, Prod.mk.injEq] at hm
        obtain ⟨rfl, rfl, rfl⟩ := hm
        simp [FS.set, hold, modeAfter]
    · simp at h
    · simp at h

/-! ## What `copyDir` does -/

theorem Entries.files_head : ∀ (es : Entries) (p : List Str) (x : Str × Nat),
    (p, x) ∈ es.files → ∃ name p', p = name :: p' ∧ name ∈ es.names
  | .nil, _, _, h => by simp [Entries.files] at h
  | .cons name node rest, p, x, h => by
    rw [Entries.files, List.mem_append] at h
    rcases h with h | h
    · obtain ⟨f, _, hf⟩ := List.mem_map.mp h
      refine ⟨name, f.1, ?_, by simp [Entries.names]⟩
      exact (congrArg Prod.fst hf).symm
    · obtain ⟨n, p', hp, hn⟩ := Entries.files_head rest p x h
      exact ⟨n, p', hp, by simp [Entries.names, hn]⟩

theorem copiesUnder_child (base : List Str) (name : Str) (files : List (List Str × Str × Nat)) :
    copiesUnder base (files.map (fun f => (name :: f.1, f.2)))
      = copiesUnder (base ++ [name]) files := by
  simp [copiesUnder, List.map_map, Function.comp_def]

theorem copiesUnder_append (base : List Str) (f g : List (List Str × Str × Nat)) :
    copiesUnder base (f ++ g) = copiesUnder base f ++ copiesUnder base g := by
  simp [copiesUnder]

theorem mem_copiesUnder (base q : List Str) (x : Str × Nat)
    (files : List (List Str × Str × Nat)) :
    (q, x) ∈ copiesUnder base files ↔ ∃ p, (p, x) ∈ files ∧ q = base ++ p := by
  unfold copiesUnder
  rw [List.mem_map]
  constructor
  · rintro ⟨f, hf, he⟩
    refine ⟨f.1, ?_, (congrArg Prod.fst he).symm⟩
    have : f.2 = x := congrArg Prod.snd he
    rw [← this]
    exact hf
  · rintro ⟨p, hp, rfl⟩
    exact ⟨(p, x), hp, rfl⟩

mutual
/-- A walk of `copyDir` that ends without error has written the files of the
tree at the mirrored paths, and has changed nothing else but for the
directories it has made. -/
theorem walk_spec : ∀ (n : Node) (dst : Str) (pre : List Str) (w w' : World),
    (∀ x ∈ pre, validName x = true) → n.validNames = true → n.uniqueNames = true →
    walk dst (relOf pre) n w = (none, w') →
    w'.cwd = w.cwd ∧ w'.umask = w.umask ∧ w'.stdout = w.stdout ∧
      Writes (copiesUnder (resolve w.cwd dst ++ pre) n.files) w.fs w'.fs ∧
      Installed w.umask (copiesUnder (resolve w.cwd dst ++ pre) n.files) w.fs w'.fs
  | .file data mode, dst, pre, w, w', hpre, _, _, h => by
    rw [walk] at h
    have hs := WriteFile_spec _ _ _ _ _ h
    rw [resolve_Join_relOf w.cwd dst pre hpre] at hs
    simpa [Node.files, copiesUnder] using hs
  | .dir mode entries, dst, pre, w, w', hpre, hv, hu, h => by
    rw [walk] at h
    rcases hm : MkdirAll (filepath.Join [dst, relOf pre]) mode w with ⟨r, w1⟩
    rw [hm] at h
    cases r with
    | some err => simp at h
    | none =>
      simp only at h
      have h1 := MkdirAll_spec (filepath.Join [dst, relOf pre]) mode w
      rw [hm] at h1
      obtain ⟨c1, u1, o1, wr1⟩ := h1
      simp only at c1 u1 o1 wr1
      obtain ⟨c2, u2, o2, wr2, in2⟩ := walkEntries_spec entries dst pre w1 w' hpre
        (by simpa [Node.validNames] using hv) (by simpa [Node.uniqueNames] using hu) h
      rw [c1, u1] at *
      refine ⟨c2, u2, o2.trans o1, ?_, ?_⟩
      · simpa [Node.files] using Writes_trans [] _ _ _ _ wr1 wr2
      · have := Installed_trans w.umask [] _ w.fs w1.fs w'.fs (fun _ _ _ hx => by simp at hx)
          wr1 in2 wr2 (fun _ _ _ _ _ hx => by simp at hx)
        simpa [Node.files] using this
/-- The loop of a walk of `copyDir` over the entries of a directory. -/
theorem walkEntries_spec : ∀ (es : Entries) (dst : Str) (pre : List Str) (w w' : World),
    (∀ x ∈ pre, validName x = true) → es.validNames = true → es.uniqueNames = true →
    walkEntries dst (relOf pre) es w = (none, w') →
    w'.cwd = w.cwd ∧ w'.umask = w.umask ∧ w'.stdout = w.stdout ∧
      Writes (copiesUnder (resolve w.cwd dst ++ pre) es.files) w.fs w'.fs ∧
      Installed w.umask (copiesUnder (resolve w.cwd dst ++ pre) es.files) w.fs w'.fs
  | .nil, dst, pre, w, w', _, _, _, h => by
    rw [walkEntries] at h
    simp only [Prod.mk.injEq, true_and] at h
    subst h
    exact ⟨rfl, rfl, rfl, Writes_refl _ _, fun _ _ _ hx => by simp [Entries.files, copiesUnder] at hx⟩
  | .cons name node rest, dst, pre, w, w', hpre, hv, hu, h => by
    rw [Entries.validNames, Bool.and_eq_true, Bool.and_eq_true] at hv
    rw [Entries.uniqueNames, Bool.and_eq_true, Bool.and_eq_true] at hu
    have hpre2 : ∀ x ∈ pre ++ [name], validName x = true := by
      intro x hx
      rcases List.mem_append.mp hx with hx | hx
      · exact hpre x hx
      · rw [List.mem_singleton.mp hx]; exact hv.1.1
    rw [walkEntries, childRel_relOf pre name hpre] at h
    rcases hm : walk dst (relOf (pre ++ [name])) node w with ⟨r, w1⟩
    rw [hm] at h
    cases r with
    | some err => simp at h
    | none =>
      simp only at h
      obtain ⟨c1, u1, o1, wr1, in1⟩ := walk_spec node dst (pre ++ [name]) w w1 hpre2
        hv.1.2 hu.1.2 hm
      obtain ⟨c2, u2, o2, wr2, in2⟩ := walkEntries_spec rest dst pre w1 w' hpre hv.2 hu.2 h
      rw [c1, u1] at *
      have hS : copiesUnder (resolve w.cwd dst ++ pre) (Entries.cons name node rest).files
          = copiesUnder (resolve w.cwd dst ++ (pre ++ [name])) node.files ++
            copiesUnder (resolve w.cwd dst ++ pre) rest.files := by
        rw [Entries.files, copiesUnder_append, copiesUnder_child, List.append_assoc]
      rw [hS]
      refine ⟨c2, u2, o2.trans o1, Writes_trans _ _ _ _ _ wr1 wr2, ?_⟩
      refine Installed_trans w.umask _ _ _ _ _ in1 wr1 in2 wr2 ?_
      intro q d m d' m' h1 h2
      obtain ⟨p1, _, e1⟩ := (mem_copiesUnder _ _ _ _).mp h1
      obtain ⟨p2, hp2, e2⟩ := (mem_copiesUnder _ _ _ _).mp h2
      obtain ⟨n2, p2', hp2', hn2⟩ := Entries.files_head rest p2 _ hp2
      rw [e1, hp2'] at e2
      simp only [List.append_assoc, List.append_cancel_left_eq, List.singleton_append,
        List.cons.injEq] at e2
      have := e2
      have hnot : name ∉ rest.names := by simpa using hu.1.1
      exact hnot (this.1 ▸ hn2)
end

/-! ## Lines that fill the scanner buffer -/

theorem replicate_a_no_space (n : Nat) : ∀ c ∈ List.replicate n 'a', isSpace c = false := by
  intro c hc
  rw [List.eq_of_mem_replicate hc]
  decide

theorem replicate_a_not_declaration (n : Nat) :
    HasPrefix (TrimSpace (dropCR (List.replicate n 'a'))) modfile.moduleKeyword = false := by
  rw [dropCR_of_not_mem _ (fun h => by simpa using List.eq_of_mem_replicate h),
    TrimSpace_of_none _ (replicate_a_no_space n)]
  cases n with
  | zero => decide
  | succ k => rfl

theorem utf8Len_replicate_a (n : Nat) : utf8Len (List.replicate n 'a') = n := by
  rw [utf8Len_replicate]
  have : runeLen 'a' = 1 := by decide
  rw [this, Nat.mul_one]

theorem scanLines_long_then (t : Str) (n : Nat) (ht : Split '\n' t = [t]) (hne : t ≠ []) :
    scanLines (List.replicate n 'a' ++ '\n' :: t) = [List.replicate n 'a', t] := by
  unfold scanLines
  rw [Split_append_sep _ _ _ (fun h => by simpa using List.eq_of_mem_replicate h), ht]
  simp [hne]

theorem scanLines_long (n : Nat) (hn : 0 < n) :
    scanLines (List.replicate n 'a') = [List.replicate n 'a'] := by
  unfold scanLines
  rw [Split_of_not_mem _ _ (fun h => by simpa using List.eq_of_mem_replicate h)]
  have : List.replicate n 'a' ≠ [] := by
    cases n with
    | zero => exact absurd hn (Nat.lt_irrefl 0)
    | succ k => simp [List.replicate_succ]
  simp [this]

/-! ## Claims on `modfile.Parse` -/

namespace modfile

/-- C2, counterexample: in the text made of a line of 65536 letters `a`
followed by the line `module x`, the first line that begins with `module`
has exactly two tokens, and yet `Parse` fails, with `ErrTooLong`. -/
theorem Parse_path_counterexample :
    scanLines (List.replicate 65536 'a' ++ "\nmodule x".toList)
        = [List.replicate 65536 'a', "module x".toList] ∧
      HasPrefix (TrimSpace (dropCR (List.replicate 65536 'a'))) moduleKeyword = false ∧
      HasPrefix (TrimSpace (dropCR "module x".toList)) moduleKeyword = true ∧
      Fields (TrimSpace (dropCR "module x".toList)) = ["module".toList, "x".toList] ∧
      Parse (.ok (List.replicate 65536 'a' ++ "\nmodule x".toList)) = .error .ErrTooLong := by
  have hs := scanLines_long_then "module x".toList 65536 (by decide) (by decide)
  refine ⟨hs, replicate_a_not_declaration 65536, by decide, by decide, ?_⟩
  show parseLines (scanLines _) = _
  rw [show "\nmodule x".toList = '\n' :: "module x".toList from rfl, hs]
  exact parseLines_too_long _ _ (by rw [utf8Len_replicate_a]; decide)

/-- C2, amended: when every raw line up to and including the first line that
(trimmed) begins with `module` is shorter than 65536 bytes and that line has
exactly two fields, `Parse` succeeds and the `Path` is the second field,
whatever the lines before and after are. -/
theorem Parse_path (data : Str) (pre post : List Str) (l a b : Str)
    (hs : scanLines data = pre ++ l :: post)
    (hpre : ∀ x ∈ pre, HasPrefix (TrimSpace (dropCR x)) moduleKeyword = false)
    (hl : HasPrefix (TrimSpace (dropCR l)) moduleKeyword = true)
    (hf : Fields (TrimSpace (dropCR l)) = [a, b])
    (hlen : ∀ x ∈ pre ++ [l], utf8Len x < MaxScanTokenSize) :
    Parse (.ok data) = .ok ⟨b⟩ := by
  show parseLines (scanLines data) = _
  rw [hs, parseLines_skip pre (l :: post) hpre (fun x hx => hlen x (by simp [hx])),
    parseLines_declaration l post (hlen l (by simp)) hl, hf]
  simp

/-- C2, witness: the manifest of the test suite, with a comment line before
the declaration and a require block after it. -/
theorem Parse_path_witness :
    Parse (.ok "// pkg\nmodule gno.land/r/dummy/foo\n\nrequire (\n\tgno.land/p/demo/users v0.0.0-latest\n)\n".toList)
      = .ok ⟨"gno.land/r/dummy/foo".toList⟩ :=
  Parse_path _ ["// pkg".toList]
    ["".toList, "require (".toList, "\tgno.land/p/demo/users v0.0.0-latest".toList, ")".toList]
    "module gno.land/r/dummy/foo".toList "module".toList "gno.land/r/dummy/foo".toList
    (by decide) (by decide) (by decide) (by decide) (by decide)

/-- C8, counterexample: in the text made of a line of 65536 letters `a`
followed by the line `module`, the first line that begins with `module` has
one token, and yet `Parse` returns `ErrTooLong`, which is not the invalid
declaration error and whose message does not contain the line. -/
theorem Parse_invalid_counterexample :
    scanLines (List.replicate 65536 'a' ++ "\nmodule".toList)
        = [List.replicate 65536 'a', "module".toList] ∧
      HasPrefix (TrimSpace (dropCR (List.replicate 65536 'a'))) moduleKeyword = false ∧
      HasPrefix (TrimSpace (dropCR "module".toList)) moduleKeyword = true ∧
      (Fields (TrimSpace (dropCR "module".toList))).length = 1 ∧
      Parse (.ok (List.replicate 65536 'a' ++ "\nmodule".toList)) = .error .ErrTooLong ∧
      GoError.ErrTooLong ≠ .errorf ("invalid module declaration: ".toList ++ "module".toList) ∧
      ¬ TrimSpace (dropCR "module".toList) <:+: GoError.ErrTooLong.Error := by
  have hs := scanLines_long_then "module".toList 65536 (by decide) (by decide)
  refine ⟨hs, replicate_a_not_declaration 65536, by decide, by decide, ?_, by decide, by decide⟩
  show parseLines (scanLines _) = _
  rw [show "\nmodule".toList = '\n' :: "module".toList from rfl, hs]
  exact parseLines_too_long _ _ (by rw [utf8Len_replicate_a]; decide)

/-- C8, amended: when every raw line up to and including the first line that
(trimmed) begins with `module` is shorter than 65536 bytes and that line does
not have exactly two fields, `Parse` returns no descriptor but the error
`invalid module declaration: <trimmed line>`, whose message contains the
trimmed line, whatever the lines after it are. -/
theorem Parse_invalid (data : Str) (pre post : List Str) (l : Str)
    (hs : scanLines data = pre ++ l :: post)
    (hpre : ∀ x ∈ pre, HasPrefix (TrimSpace (dropCR x)) moduleKeyword = false)
    (hl : HasPrefix (TrimSpace (dropCR l)) moduleKeyword = true)
    (hf : (Fields (TrimSpace (dropCR l))).length ≠ 2)
    (hlen : ∀ x ∈ pre ++ [l], utf8Len x < MaxScanTokenSize) :
    Parse (.ok data)
        = .error (.errorf ("invalid module declaration: ".toList ++ TrimSpace (dropCR l))) ∧
      TrimSpace (dropCR l) <:+:
        (GoError.errorf ("invalid module declaration: ".toList ++ TrimSpace (dropCR l))).Error := by
  constructor
  · show parseLines (scanLines data) = _
    rw [hs, parseLines_skip pre (l :: post) hpre (fun x hx => hlen x (by simp [hx])),
      parseLines_declaration l post (hlen l (by simp)) hl, if_pos hf]
  · exact ⟨"invalid module declaration: ".toList, [], by simp [GoError.Error]⟩

/-- C8, witness: the three-token declaration of the test suite, followed by a
well-formed declaration. -/
theorem Parse_invalid_witness :
    Parse (.ok "module gno.land /r/dummy/foo\nmodule gno.land/r/dummy/foo\n".toList)
        = .error (.errorf ("invalid module declaration: ".toList ++
            TrimSpace (dropCR "module gno.land /r/dummy/foo".toList))) ∧
      TrimSpace (dropCR "module gno.land /r/dummy/foo".toList) <:+:
        (GoError.errorf ("invalid module declaration: ".toList ++
            TrimSpace (dropCR "module gno.land /r/dummy/foo".toList))).Error :=
  Parse_invalid _ [] ["module gno.land/r/dummy/foo".toList] "module gno.land /r/dummy/foo".toList
    (by decide) (by decide) (by decide) (by decide) (by decide)

/-- C9, counterexample: the readable text made of 65536 letters `a` has no
line that begins with `module`, and yet `Parse` does not return the
declaration-not-found error but `ErrTooLong`. -/
theorem Parse_not_found_counterexample :
    (∀ x ∈ scanLines (List.replicate 65536 'a'),
        HasPrefix (TrimSpace (dropCR x)) moduleKeyword = false) ∧
      Parse (.ok (List.replicate 65536 'a')) = .error .ErrTooLong ∧
      Parse (.ok (List.replicate 65536 'a'))
        ≠ .error (.errorf "module declaration not found".toList) := by
  have hs := scanLines_long 65536 (by decide)
  have hp : Parse (.ok (List.replicate 65536 'a')) = .error .ErrTooLong := by
    show parseLines (scanLines _) = _
    rw [hs]
    exact parseLines_too_long _ _ (by rw [utf8Len_replicate_a]; decide)
  refine ⟨?_, hp, ?_⟩
  · intro x hx
    rw [hs] at hx
    rw [List.mem_singleton.mp hx]
    exact replicate_a_not_declaration 65536
  · rw [hp]; decide

/-- C9, amended: for every readable manifest whose raw lines are all shorter
than 65536 bytes and in which no line, trimmed, begins with `module`, `Parse`
returns no descriptor but the error `module declaration not found`. -/
theorem Parse_not_found (data : Str)
    (hno : ∀ x ∈ scanLines data, HasPrefix (TrimSpace (dropCR x)) moduleKeyword = false)
    (hlen : ∀ x ∈ scanLines data, utf8Len x < MaxScanTokenSize) :
    Parse (.ok data) = .error (.errorf "module declaration not found".toList) := by
  show parseLines (scanLines data) = _
  have h := parseLines_skip (scanLines data) [] hno hlen
  rw [List.append_nil] at h
  rw [h]
  rfl

/-- C9, witness: the manifest of the test suite in which `module` comes after
other text on its line. -/
theorem Parse_not_found_witness :
    Parse (.ok "invalid module declaration\nrequire (\n\tgno.land/p/demo/grc/grc20 v0.0.0-latest\n)\n".toList)
      = .error (.errorf "module declaration not found".toList) :=
  Parse_not_found _ (by decide) (by decide)

/-- C10, counterexample: `Parse` succeeds on the manifest `modulefoo bar`,
whose declaration line splits into the two tokens `modulefoo` and `bar`: the
first token is not the keyword `module`. -/
theorem Parse_tokens_counterexample :
    Parse (.ok "modulefoo bar".toList) = .ok ⟨"bar".toList⟩ ∧
      scanLines "modulefoo bar".toList = ["modulefoo bar".toList] ∧
      Fields (TrimSpace (dropCR "modulefoo bar".toList)) = ["modulefoo".toList, "bar".toList] ∧
      "modulefoo".toList ≠ moduleKeyword := by
  decide

/-- C10, amended: for every manifest on which `Parse` succeeds, the first raw
line that (trimmed) begins with `module` splits on white space into exactly
two tokens; the first token begins with `module` and the second token is the
returned `Path`. -/
theorem Parse_tokens (data : Str) (m : Module) (h : Parse (.ok data) = .ok m) :
    ∃ pre l post a, scanLines data = pre ++ l :: post ∧
      (∀ x ∈ pre, HasPrefix (TrimSpace (dropCR x)) moduleKeyword = false) ∧
      HasPrefix (TrimSpace (dropCR l)) moduleKeyword = true ∧
      Fields (TrimSpace (dropCR l)) = [a, m.Path] ∧
      HasPrefix a moduleKeyword = true := by
  obtain ⟨pre, l, post, a, hs, hp, hl, hf⟩ := parseLines_ok (scanLines data) m h
  refine ⟨pre, l, post, a, hs, hp, hl, hf, ?_⟩
  obtain ⟨r, hr⟩ := (HasPrefix_iff _ _).mp hl
  obtain ⟨f, fs, hF⟩ := Fields_prefix moduleKeyword r (by decide) moduleKeyword_no_space
  rw [hr, hF] at hf
  have : moduleKeyword ++ f = a := by
    have := List.cons_eq_cons.mp hf
    exact this.1
  exact (HasPrefix_iff _ _).mpr ⟨f, this.symm⟩

/-- C10, witness: the well-formed manifest of the test suite. -/
theorem Parse_tokens_witness :
    ∃ pre l post a, scanLines "module gno.land/r/dummy/foo\n".toList = pre ++ l :: post ∧
      (∀ x ∈ pre, HasPrefix (TrimSpace (dropCR x)) moduleKeyword = false) ∧
      HasPrefix (TrimSpace (dropCR l)) moduleKeyword = true ∧
      Fields (TrimSpace (dropCR l)) = [a, (Module.mk "gno.land/r/dummy/foo".toList).Path] ∧
      HasPrefix a moduleKeyword = true :=
  Parse_tokens "module gno.land/r/dummy/foo\n".toList ⟨"gno.land/r/dummy/foo".toList⟩ (by decide)

end modfile

/-! ## Claims on the destination directory -/

theorem destDir_eq_of_no_dotdot (P : Str) (h : filepath.dotdot ∉ Split '/' P) :
    destDir P = strings.Join '/'
      ("gno".toList :: "examples".toList :: (Split '/' P).filter filepath.keeps) := by
  have hs : Split '/' ("gno".toList ++ '/' :: ("examples".toList ++ '/' :: P))
      = "gno".toList :: "examples".toList :: Split '/' P := by
    rw [Split_append, Split_append]
    rfl
  have hd : filepath.dotdot ∉ "gno".toList :: "examples".toList :: Split '/' P := by
    intro hm
    rcases List.mem_cons.mp hm with e | hm
    · exact absurd e (by decide)
    · rcases List.mem_cons.mp hm with e | hm
      · exact absurd e (by decide)
      · exact h hm
  have hj : destDir P = filepath.Clean ("gno".toList ++ '/' :: ("examples".toList ++ '/' :: P)) := rfl
  rw [hj]
  unfold filepath.Clean
  have hr : (("gno".toList ++ '/' :: ("examples".toList ++ '/' :: P)).head? = some '/') = False := by
    simp
  simp only [hr, hs, filepath.cleanLoop_no_dotdot _ _ _ hd, if_false, List.append_nil,
    List.reverse_reverse]
  have hf : List.filter filepath.keeps ("gno".toList :: "examples".toList :: Split '/' P)
      = "gno".toList :: "examples".toList :: List.filter filepath.keeps (Split '/' P) := by
    rw [List.filter_cons_of_pos (by decide), List.filter_cons_of_pos (by decide)]
  rw [hf, if_neg (by simp)]

/-- C3, counterexample: `Parse` returns the module path `../../../tmp/x` for
the manifest `module ../../../tmp/x`, and the destination directory computed
from it is `../tmp/x`, which does not have `gno/examples` as leading
segments. -/
theorem destDir_counterexample :
    modfile.Parse (.ok "module ../../../tmp/x".toList) = .ok ⟨"../../../tmp/x".toList⟩ ∧
      destDir "../../../tmp/x".toList = "../tmp/x".toList ∧
      ¬ ["gno".toList, "examples".toList] <+: Split '/' (destDir "../../../tmp/x".toList) := by
  decide

/-- C3, amended: for every module path none of whose slash-separated elements
is `..` (whether `Parse` returns it or not), the destination directory
`filepath.Join("gno", "examples", path)` has `gno`, `examples` as its leading
path segments. -/
theorem destDir_inside (P : Str) (hdd : filepath.dotdot ∉ Split '/' P) :
    ["gno".toList, "examples".toList] <+: Split '/' (destDir P) := by
  rw [destDir_eq_of_no_dotdot _ hdd, Split_Join _ _ (by simp)]
  · exact ⟨(Split '/' P).filter filepath.keeps, rfl⟩
  · intro e he
    rcases List.mem_cons.mp he with rfl | he
    · decide
    · rcases List.mem_cons.mp he with rfl | he
      · decide
      · exact not_mem_of_mem_Split '/' P e (List.mem_of_mem_filter he)

/-- C3, witness: the module path of the test suite, as `Parse` returns it. -/
theorem destDir_inside_witness :
    modfile.Parse (.ok "module gno.land/r/demo/mypackage".toList)
        = .ok ⟨"gno.land/r/demo/mypackage".toList⟩ ∧
      ["gno".toList, "examples".toList] <+:
        Split '/' (destDir "gno.land/r/demo/mypackage".toList) :=
  ⟨by decide, destDir_inside "gno.land/r/demo/mypackage".toList (by decide)⟩

/-! ## Claims on `GetPackage` -/

theorem Split_length (sep : Char) (s : Str) : (Split sep s).length = s.count sep + 1 := by
  induction s with
  | nil => rfl
  | cons c cs ih =>
    by_cases hc : c = sep
    · simp [Split, hc, ih]
    · have e : Split sep (c :: cs) = consHead c (Split sep cs) := by
        simp only [Split, hc, if_false]
      have hc2 : sep ≠ c := fun x => hc x.symm
      rw [e, List.count_cons_of_ne hc2, ← ih]
      cases h : Split sep cs with
      | nil => exact absurd h (Split_ne_nil sep cs)
      | cons l ls => rfl

theorem mkdirTempLoop_fs (n : Nat) (w : World) :
    (mkdirTempLoop n w).2.fs = w.fs ∧ (mkdirTempLoop n w).2.stdout = w.stdout := by
  induction n generalizing w with
  | zero => exact ⟨rfl, rfl⟩
  | succ k ih =>
    unfold mkdirTempLoop
    simp only
    split
    · exact ih _
    · exact ⟨rfl, rfl⟩

theorem MkdirTemp_fs (w : World) :
    (MkdirTemp w).2.fs = w.fs ∧ (MkdirTemp w).2.stdout = w.stdout := by
  unfold MkdirTemp
  split
  · exact mkdirTempLoop_fs _ w
  · exact ⟨rfl, rfl⟩

/-- C1: for every URL that splits on `/` into fewer than 3 segments, that is
with fewer than two `/`, and whatever the repository fetcher is, `GetPackage`
returns exactly `ErrInvalidURL` and leaves the machine as it was: no scratch
directory is created, no file or directory is written, and the fetcher, which
could change the machine, is not called. -/
theorem GetPackage_invalid_url
    (execCommand : Str → Str → Str → World → Option GoError × World) (url : Str) (w : World)
    (h : (Split '/' url).length < 3) :
    url.count '/' < 2 ∧ GetPackage execCommand url w = (some ErrInvalidURL, w) := by
  constructor
  · rw [Split_length] at h
    omega
  · unfold GetPackage
    simp only [h, if_true]

/-- C1, witness: the invalid URL of the test suite, with a fetcher that
would write to the standard output if it were called. -/
theorem GetPackage_invalid_url_witness :
    "invalid-url".toList.count '/' < 2 ∧
      GetPackage (fun _ _ _ v => (none, { v with stdout := v.stdout ++ [[]] }))
        "invalid-url".toList testWorld = (some ErrInvalidURL, testWorld) :=
  GetPackage_invalid_url _ "invalid-url".toList testWorld (by decide)

theorem RemoveAll_fs (name : Str) (w : World) :
    (RemoveAll name w).2.fs = w.fs ∧ (RemoveAll name w).2.stdout = w.stdout := by
  unfold RemoveAll
  split
  · exact ⟨rfl, rfl⟩
  · split
    · exact ⟨rfl, rfl⟩
    · exact ⟨rfl, rfl⟩

/-- What `GetPackage` returns when the fetcher fails: the error of the
fetcher, wrapped, and the machine as the fetcher and then the deferred
`os.RemoveAll` leave it.  `processDirectory` is not run: outside the scratch
directory the files, the directories and the standard output are what the
fetcher left. -/
theorem GetPackage_clone_failure
    (execCommand : Str → Str → Str → World → Option GoError × World) (url : Str) (w : World)
    (name : Str) (err : GoError)
    (hurl : ¬ (Split '/' url).length < 3)
    (hmk : (MkdirTemp w).1 = .ok name)
    (hexec : (execCommand "clone".toList url (tempPath (MkdirTemp w).2 name)
      (MkdirTemp w).2).1 = some err) :
    GetPackage execCommand url w =
        (some (.errorf ("failed to clone repository: ".toList ++ err.Error)),
          (RemoveAll name (execCommand "clone".toList url (tempPath (MkdirTemp w).2 name)
            (MkdirTemp w).2).2).2) ∧
      (GetPackage execCommand url w).2.fs =
        (execCommand "clone".toList url (tempPath (MkdirTemp w).2 name) (MkdirTemp w).2).2.fs ∧
      (GetPackage execCommand url w).2.stdout =
        (execCommand "clone".toList url (tempPath (MkdirTemp w).2 name)
          (MkdirTemp w).2).2.stdout := by
  have hG : GetPackage execCommand url w =
      (some (.errorf ("failed to clone repository: ".toList ++ err.Error)),
        (RemoveAll name (execCommand "clone".toList url (tempPath (MkdirTemp w).2 name)
          (MkdirTemp w).2).2).2) := by
    unfold GetPackage
    simp only [hurl, if_false]
    rcases hm : MkdirTemp w with ⟨r, w1⟩
    rw [hm] at hmk hexec
    simp only at hmk hexec
    subst hmk
    simp only
    rcases he : execCommand "clone".toList url (tempPath w1 name) w1 with ⟨e, w2⟩
    rw [he] at hexec
    simp only at hexec
    subst hexec
    rfl
  refine ⟨hG, ?_, ?_⟩
  · rw [hG]; exact (RemoveAll_fs _ _).1
  · rw [hG]; exact (RemoveAll_fs _ _).2

/-- C6, at the failing input: for the valid URL `github.com/username/repo`, on
a machine where the process is not the superuser, a fetcher returns an error
after it has left in the scratch directory a directory `objects` with the
permission bits 0555 and a file in it.  `GetPackage` returns the wrapped error
of the fetcher and nothing is installed, but the deferred `os.RemoveAll`
cannot unlink the file, its error is dropped, and the scratch directory
`gnock-7` made for the call still exists when `GetPackage` returns. -/
theorem GetPackage_scratch_survives :
    testWorld.privileged = false ∧
      (MkdirTemp testWorld).1 = .ok "gnock-7".toList ∧
      (GetPackage mockGitLeavesReadOnly "github.com/username/repo".toList testWorld).1
        = some (.errorf "failed to clone repository: git clone failed".toList) ∧
      (GetPackage mockGitLeavesReadOnly "github.com/username/repo".toList testWorld).2.stdout
        = [] ∧
      ((GetPackage mockGitLeavesReadOnly "github.com/username/repo".toList testWorld).2.tmp
        "gnock-7".toList).isSome = true ∧
      (RemoveAll "gnock-7".toList
        (mockGitLeavesReadOnly "clone".toList "github.com/username/repo".toList
          "/tmp/gnock-7".toList (MkdirTemp testWorld).2).2).1
        = some (.os "permission denied".toList) := by
  decide!

/-! ## Claims on `processDirectory`: manifests that fail to parse -/

theorem installAll_append (a b : List (Str × Node × Str)) (w : World) :
    installAll (a ++ b) w =
      match installAll a w with
      | (some err, w1) => (some err, w1)
      | (none, w1) => installAll b w1 := by
  induction a generalizing w with
  | nil => rfl
  | cons x xs ih =>
    obtain ⟨dir, self, P⟩ := x
    rw [List.cons_append, installAll, installAll]
    rcases install dir self P w with ⟨r, w1⟩
    cases r with
    | some err => rfl
    | none => exact ih w1

theorem runPlan_stop (steps : List (Str × Node × Str)) (bad : List Str × GoError) (w : World) :
    (runPlan (steps, some bad) w).1 ≠ none := by
  unfold runPlan
  rcases installAll steps w with ⟨r, w1⟩
  cases r with
  | some err => simp
  | none => simp

mutual
/-- The run of `processDirectory` on a directory is the run of its visit. -/
theorem processDirectory_plan : ∀ (n : Node) (dir : Str) (pre : List Str) (w : World),
    (∀ x ∈ pre, validName x = true) → n.validNames = true →
    (∃ mode entries, n = .dir mode entries) →
    processDirectory dir (strings.Join '/' pre) n w = runPlan (n.plan dir pre) w
  | .file _ _, _, _, _, _, _, hdir => by
    obtain ⟨_, _, h⟩ := hdir
    cases h
  | .dir mode entries, dir, pre, w, hpre, hv, _ => by
    rw [processDirectory, Node.plan]
    exact processEntries_plan entries dir pre (.dir mode entries) w hpre
      (by simpa [Node.validNames] using hv)
/-- The run of the loop of `processDirectory` is the run of the visit of the
entries. -/
theorem processEntries_plan : ∀ (es : Entries) (dir : Str) (pre : List Str) (self : Node)
    (w : World), (∀ x ∈ pre, validName x = true) → es.validNames = true →
    processEntries dir (strings.Join '/' pre) self es w = runPlan (es.plan dir pre self) w
  | .nil, _, _, _, _, _, _ => by
    rw [processEntries, Entries.plan]
    rfl
  | .cons name (.dir cmode centries) rest, dir, pre, self, w, hpre, hv => by
    rw [Entries.validNames, Bool.and_eq_true, Bool.and_eq_true] at hv
    have hpre2 : ∀ x ∈ pre ++ [name], validName x = true := by
      intro x hx
      rcases List.mem_append.mp hx with hx | hx
      · exact hpre x hx
      · rw [List.mem_singleton.mp hx]; exact hv.1.1
    have hchild := processDirectory_plan (.dir cmode centries) (filepath.Join [dir, name])
      (pre ++ [name]) w hpre2 hv.1.2 ⟨cmode, centries, rfl⟩
    have hrest := fun w1 => processEntries_plan rest dir pre self w1 hpre hv.2
    rw [processEntries, Join_relpath pre name hpre hv.1.1, hchild, Entries.plan]
    rcases hplan : (Node.dir cmode centries).plan (filepath.Join [dir, name]) (pre ++ [name])
      with ⟨steps, stop⟩
    cases stop with
    | some bad =>
      simp only
      have hne := runPlan_stop steps bad w
      rcases hrun : runPlan (steps, some bad) w with ⟨r, w1⟩
      rw [hrun] at hne
      cases r with
      | some err => rfl
      | none => exact absurd rfl hne
    | none =>
      simp only
      unfold runPlan
      simp only [installAll_append]
      rcases installAll steps w with ⟨r, w1⟩
      cases r with
      | some err => rfl
      | none =>
        simp only
        rw [hrest w1]
        rfl
  | .cons name (.file data fmode) rest, dir, pre, self, w, hpre, hv => by
    rw [Entries.validNames, Bool.and_eq_true, Bool.and_eq_true] at hv
    have hrest := fun w1 => processEntries_plan rest dir pre self w1 hpre hv.2
    rw [processEntries, Entries.plan]
    by_cases hn : name = gnoModFilename
    · rw [if_pos hn, if_pos hn]
      cases hparse : modfile.Parse (.ok data) with
      | error perr => rfl
      | ok module =>
        simp only
        unfold runPlan
        simp only [installAll, install]
        rcases MkdirAll (destDir module.Path) 0o755 w with ⟨r1, w1⟩
        cases r1 with
        | some err => rfl
        | none =>
          simp only
          rcases copyDir self (destDir module.Path) w1 with ⟨r2, w2⟩
          cases r2 with
          | some err => rfl
          | none =>
            simp only
            rw [hrest]
            rfl
    · rw [if_neg hn, if_neg hn]
      exact hrest w
end

mutual
/-- The manifest a visit stops at is a manifest of the tree that fails to
parse, and the names recorded for it lead to its directory. -/
theorem Node.plan_located : ∀ (n : Node) (dir : Str) (pre names : List Str) (perr : GoError),
    (n.plan dir pre).2 = some (names, perr) →
    ∃ names' mode entries data fmode, names = pre ++ names' ∧
      Reaches n names' (.dir mode entries) ∧
      (gnoModFilename, Node.file data fmode) ∈ entries.toList ∧
      modfile.Parse (.ok data) = .error perr
  | .file _ _, _, _, _, _, h => by simp [Node.plan] at h
  | .dir mode entries, dir, pre, names, perr, h => by
    rw [Node.plan] at h
    exact Entries.entry_plan_located entries dir pre mode entries names perr (fun x hx => hx) h
/-- The manifest the visit of entries of the directory `.dir mode all` stops
at is a manifest of that tree that fails to parse. -/
theorem Entries.entry_plan_located : ∀ (es : Entries) (dir : Str) (pre : List Str) (mode : Nat)
    (all : Entries) (names : List Str) (perr : GoError),
    (∀ x ∈ es.toList, x ∈ all.toList) →
    (es.plan dir pre (.dir mode all)).2 = some (names, perr) →
    ∃ names' m entries data fmode, names = pre ++ names' ∧
      Reaches (.dir mode all) names' (.dir m entries) ∧
      (gnoModFilename, Node.file data fmode) ∈ entries.toList ∧
      modfile.Parse (.ok data) = .error perr
  | .nil, _, _, _, _, _, _, _, h => by simp [Entries.plan] at h
  | .cons name (.dir cmode centries) rest, dir, pre, mode, all, names, perr, hsub, h => by
    have hrest : ∀ x ∈ rest.toList, x ∈ all.toList :=
      fun x hx => hsub x (by simp [Entries.toList, hx])
    rw [Entries.plan] at h
    rcases hplan : (Node.dir cmode centries).plan (filepath.Join [dir, name]) (pre ++ [name])
      with ⟨steps, stop⟩
    rw [hplan] at h
    cases stop with
    | some bad =>
      simp only [Option.some.injEq] at h
      subst h
      obtain ⟨names', m, entries, data, fmode, e, hr, hmem, hp⟩ :=
        Node.plan_located (.dir cmode centries) _ (pre ++ [name]) names perr
          (by rw [hplan])
      exact ⟨name :: names', m, entries, data, fmode, by simp [e],
        Reaches.step mode all name _ names' _ (hsub _ (by simp [Entries.toList])) hr, hmem, hp⟩
    | none =>
      simp only at h
      exact Entries.entry_plan_located rest dir pre mode all names perr hrest h
  | .cons name (.file data fmode) rest, dir, pre, mode, all, names, perr, hsub, h => by
    have hrest : ∀ x ∈ rest.toList, x ∈ all.toList :=
      fun x hx => hsub x (by simp [Entries.toList, hx])
    rw [Entries.plan] at h
    by_cases hn : name = gnoModFilename
    · rw [if_pos hn] at h
      cases hparse : modfile.Parse (.ok data) with
      | error e =>
        rw [hparse] at h
        simp only [Option.some.injEq, Prod.mk.injEq] at h
        obtain ⟨rfl, rfl⟩ := h
        refine ⟨[], mode, all, data, fmode, by simp, Reaches.here _, ?_, hparse⟩
        rw [← hn]
        exact hsub _ (by simp [Entries.toList])
      | ok module =>
        rw [hparse] at h
        simp only at h
        exact Entries.entry_plan_located rest dir pre mode all names perr hrest h
    · rw [if_neg hn] at h
      exact Entries.entry_plan_located rest dir pre mode all names perr hrest h
end

mutual
/-- The visit of a tree with a manifest that fails to parse stops at one. -/
theorem Node.plan_of_bad : ∀ (n : Node) (dir : Str) (pre : List Str),
    n.hasBadManifest = true → ∃ bad, (n.plan dir pre).2 = some bad
  | .file _ _, _, _, h => by simp [Node.hasBadManifest] at h
  | .dir mode entries, dir, pre, h => by
    rw [Node.plan]
    exact Entries.entry_plan_of_bad entries dir pre (.dir mode entries)
      (by simpa [Node.hasBadManifest] using h)
/-- The visit of entries with a manifest that fails to parse stops at one. -/
theorem Entries.entry_plan_of_bad : ∀ (es : Entries) (dir : Str) (pre : List Str) (self : Node),
    es.hasBadManifest = true → ∃ bad, (es.plan dir pre self).2 = some bad
  | .nil, _, _, _, h => by simp [Entries.hasBadManifest] at h
  | .cons name (.dir cmode centries) rest, dir, pre, self, h => by
    rw [Entries.plan]
    rcases hplan : (Node.dir cmode centries).plan (filepath.Join [dir, name]) (pre ++ [name])
      with ⟨steps, stop⟩
    cases stop with
    | some bad => exact ⟨bad, rfl⟩
    | none =>
      simp only
      rw [Entries.hasBadManifest, Bool.or_eq_true] at h
      rcases h with h | h
      · obtain ⟨bad, hb⟩ := Node.plan_of_bad (.dir cmode centries) (filepath.Join [dir, name])
          (pre ++ [name]) (by simpa [Node.hasBadManifest] using h)
        rw [hplan] at hb
        cases hb
      · exact Entries.entry_plan_of_bad rest dir pre self h
  | .cons name (.file data fmode) rest, dir, pre, self, h => by
    rw [Entries.plan]
    rw [Entries.hasBadManifest, Bool.or_eq_true] at h
    by_cases hn : name = gnoModFilename
    · rw [if_pos hn]
      cases hparse : modfile.Parse (.ok data) with
      | error perr => exact ⟨(pre, perr), rfl⟩
      | ok module =>
        simp only
        rcases h with h | h
        · simp [parseFails, hparse] at h
        · exact Entries.entry_plan_of_bad rest dir pre self h
    · rw [if_neg hn]
      rcases h with h | h
      · simp [hn] at h
      · exact Entries.entry_plan_of_bad rest dir pre self h
end

/-- C7: for every source tree (with entry names a file system accepts) in
which at least one `gno.mod` file fails to parse, `processDirectory` called
on the root with the empty relative path returns a non-nil error, whatever
the other manifests are and wherever the bad one is.  The visit stops at a
manifest of the tree that fails to parse, in a directory the names `names`
lead to from the root, and the call returns exactly what the installations
made before that manifest and then the error made for it give: when one of
these installations fails, its error; when none fails, the error
`failed to parse gno.mod file in <relpath>: <parse error>` made at the
directory of the manifest, where `<relpath>` is `names` joined by slashes.
That error has come unchanged through every enclosing call, and its message
contains the relative path. -/
theorem processDirectory_bad_manifest (dir : Str) (root : Node) (w : World)
    (hv : root.validNames = true) (hbad : root.hasBadManifest = true) :
    ∃ names mode entries data fmode perr,
      Reaches root names (.dir mode entries) ∧
      (gnoModFilename, Node.file data fmode) ∈ entries.toList ∧
      modfile.Parse (.ok data) = .error perr ∧
      (root.plan dir []).2 = some (names, perr) ∧
      processDirectory dir [] root w =
        (match installAll (root.plan dir []).1 w with
          | (some err, w1) => (some err, w1)
          | (none, w1) =>
            (some (.errorf ("failed to parse gno.mod file in ".toList ++
              strings.Join '/' names ++ ": ".toList ++ perr.Error)), w1)) ∧
      ((installAll (root.plan dir []).1 w).1 = none →
        (processDirectory dir [] root w).1 =
          some (.errorf ("failed to parse gno.mod file in ".toList ++
            strings.Join '/' names ++ ": ".toList ++ perr.Error))) ∧
      (processDirectory dir [] root w).1 ≠ none ∧
      strings.Join '/' names <:+:
        (GoError.errorf ("failed to parse gno.mod file in ".toList ++
          strings.Join '/' names ++ ": ".toList ++ perr.Error)).Error := by
  obtain ⟨⟨names, perr⟩, hstop⟩ := Node.plan_of_bad root dir [] hbad
  obtain ⟨names', mode, entries, data, fmode, e, hreach, hmem, hparse⟩ :=
    Node.plan_located root dir [] names perr hstop
  have hn : names = names' := by simpa using e
  subst hn
  have hdir : ∃ m es, root = .dir m es := by
    cases root with
    | file d m => simp [Node.hasBadManifest] at hbad
    | dir m es => exact ⟨m, es, rfl⟩
  have hrun := processDirectory_plan root dir [] w (by simp) hv hdir
  have hj : strings.Join '/' ([] : List Str) = [] := rfl
  rw [hj] at hrun
  have heq : processDirectory dir [] root w =
      (match installAll (root.plan dir []).1 w with
        | (some err, w1) => (some err, w1)
        | (none, w1) =>
          (some (.errorf ("failed to parse gno.mod file in ".toList ++
            strings.Join '/' names ++ ": ".toList ++ perr.Error)), w1)) := by
    rw [hrun]
    unfold runPlan
    rw [hstop]
    rfl
  refine ⟨names, mode, entries, data, fmode, perr, hreach, hmem, hparse, hstop, heq, ?_, ?_, ?_⟩
  · intro hok
    rw [heq]
    rcases hi : installAll (root.plan dir []).1 w with ⟨r, w1⟩
    rw [hi] at hok
    simp only at hok
    subst hok
    rfl
  · rw [heq]
    rcases installAll (root.plan dir []).1 w with ⟨r, w1⟩
    cases r with
    | some err => simp
    | none => simp
  · exact ⟨"failed to parse gno.mod file in ".toList, ": ".toList ++ perr.Error, by
      simp [GoError.Error]⟩

/-- C7, witness: a repository with a good manifest in `good`, which is
installed, and a manifest without module path in `pkg/bad`: the call returns
the error made in `pkg/bad`. -/
theorem processDirectory_bad_manifest_witness :
    (processDirectory "/tmp/gnock-7".toList [] badRepo testWorld).1
        = some (.errorf
          "failed to parse gno.mod file in pkg/bad: invalid module declaration: module".toList) ∧
      ∃ names mode entries data fmode perr,
        Reaches badRepo names (.dir mode entries) ∧
        (gnoModFilename, Node.file data fmode) ∈ entries.toList ∧
        modfile.Parse (.ok data) = .error perr ∧
        (badRepo.plan "/tmp/gnock-7".toList []).2 = some (names, perr) ∧
        processDirectory "/tmp/gnock-7".toList [] badRepo testWorld =
          (match installAll (badRepo.plan "/tmp/gnock-7".toList []).1 testWorld with
            | (some err, w1) => (some err, w1)
            | (none, w1) =>
              (some (.errorf ("failed to parse gno.mod file in ".toList ++
                strings.Join '/' names ++ ": ".toList ++ perr.Error)), w1)) ∧
        ((installAll (badRepo.plan "/tmp/gnock-7".toList []).1 testWorld).1 = none →
          (processDirectory "/tmp/gnock-7".toList [] badRepo testWorld).1 =
            some (.errorf ("failed to parse gno.mod file in ".toList ++
              strings.Join '/' names ++ ": ".toList ++ perr.Error))) ∧
        (processDirectory "/tmp/gnock-7".toList [] badRepo testWorld).1 ≠ none ∧
        strings.Join '/' names <:+:
          (GoError.errorf ("failed to parse gno.mod file in ".toList ++
            strings.Join '/' names ++ ": ".toList ++ perr.Error)).Error :=
  ⟨by decide!,
    processDirectory_bad_manifest "/tmp/gnock-7".toList badRepo testWorld (by decide!)
      (by decide!)⟩



/-! ## Package roots and files by the names that lead to them -/

theorem Reaches_file (data : Str) (mode : Nat) (p : List Str) (n : Node)
    (h : Reaches (.file data mode) p n) : p = [] ∧ n = .file data mode := by
  cases h with
  | here => exact ⟨rfl, rfl⟩

theorem Reaches_dir (mode : Nat) (es : Entries) (p : List Str) (n : Node)
    (h : Reaches (.dir mode es) p n) :
    (p = [] ∧ n = .dir mode es) ∨
      ∃ name child p', p = name :: p' ∧ (name, child) ∈ es.toList ∧ Reaches child p' n := by
  cases h with
  | here => exact Or.inl ⟨rfl, rfl⟩
  | step _ _ name child names _ hmem hrest => exact Or.inr ⟨name, child, names, rfl, hmem, hrest⟩

mutual
/-- The files listed for a tree are reached by their names. -/
theorem Node.reaches_of_mem_files : ∀ (n : Node) (p : List Str) (d : Str) (m : Nat),
    (p, d, m) ∈ n.files → Reaches n p (.file d m)
  | .file d0 m0, p, d, m, h => by
    simp only [Node.files, List.mem_singleton, Prod.mk.injEq] at h
    obtain ⟨rfl, rfl, rfl⟩ := h
    exact Reaches.here _
  | .dir mode es, p, d, m, h => by
    rw [Node.files] at h
    obtain ⟨name, child, p', rfl, hmem, hr⟩ := Entries.entry_reaches_of_mem_files es p d m h
    exact Reaches.step mode es name child p' _ hmem hr
/-- The files listed for entries are reached by their names from an entry. -/
theorem Entries.entry_reaches_of_mem_files : ∀ (es : Entries) (p : List Str) (d : Str) (m : Nat),
    (p, d, m) ∈ es.files →
    ∃ name child p', p = name :: p' ∧ (name, child) ∈ es.toList ∧ Reaches child p' (.file d m)
  | .nil, _, _, _, h => by simp [Entries.files] at h
  | .cons name node rest, p, d, m, h => by
    rw [Entries.files, List.mem_append] at h
    rcases h with h | h
    · obtain ⟨f, hf, he⟩ := List.mem_map.mp h
      obtain ⟨f1, f2, f3⟩ := f
      simp only [Prod.mk.injEq] at he
      obtain ⟨rfl, rfl, rfl⟩ := he
      exact ⟨name, node, f1, rfl, by simp [Entries.toList],
        Node.reaches_of_mem_files node f1 f2 f3 hf⟩
    · obtain ⟨n2, child, p', hp, hmem, hr⟩ := Entries.entry_reaches_of_mem_files rest p d m h
      exact ⟨n2, child, p', hp, by simp [Entries.toList, hmem], hr⟩
end

mutual
/-- The files reached from a tree are listed for it. -/
theorem Node.mem_files_of_reaches : ∀ (n : Node) (p : List Str) (d : Str) (m : Nat),
    Reaches n p (.file d m) → (p, d, m) ∈ n.files
  | .file d0 m0, p, d, m, h => by
    obtain ⟨rfl, e⟩ := Reaches_file d0 m0 p _ h
    cases e
    simp [Node.files]
  | .dir mode es, p, d, m, h => by
    rw [Node.files]
    rcases Reaches_dir mode es p _ h with ⟨_, e⟩ | ⟨name, child, p', rfl, hmem, hr⟩
    · cases e
    · exact Entries.entry_mem_files_of_reaches es name child p' d m hmem hr
/-- The files reached from an entry are listed for the entries. -/
theorem Entries.entry_mem_files_of_reaches : ∀ (es : Entries) (name : Str) (child : Node)
    (p' : List Str) (d : Str) (m : Nat),
    (name, child) ∈ es.toList → Reaches child p' (.file d m) → (name :: p', d, m) ∈ es.files
  | .nil, _, _, _, _, _, h, _ => by simp [Entries.toList] at h
  | .cons n0 node rest, name, child, p', d, m, hmem, hr => by
    rw [Entries.files, List.mem_append]
    rw [Entries.toList, List.mem_cons] at hmem
    rcases hmem with e | hmem
    · obtain ⟨rfl, rfl⟩ := Prod.mk.inj e
      exact Or.inl (List.mem_map.mpr ⟨(p', d, m),
        Node.mem_files_of_reaches child p' d m hr, rfl⟩)
    · exact Or.inr (Entries.entry_mem_files_of_reaches rest name child p' d m hmem hr)
end

theorem Entries.self_mem_packages : ∀ (es : Entries) (self : Node) (data : Str) (fmode : Nat)
    (P : Str), (gnoModFilename, Node.file data fmode) ∈ es.toList →
    modfile.Parse (.ok data) = .ok ⟨P⟩ → (self, P) ∈ es.packages self
  | .nil, _, _, _, _, h, _ => by simp [Entries.toList] at h
  | .cons name (.dir cmode centries) rest, self, data, fmode, P, h, hp => by
    rw [Entries.toList, List.mem_cons] at h
    rw [Entries.packages, List.mem_append]
    rcases h with e | h
    · cases (Prod.mk.inj e).2
    · exact Or.inr (Entries.self_mem_packages rest self data fmode P h hp)
  | .cons name (.file d0 m0) rest, self, data, fmode, P, h, hp => by
    rw [Entries.toList, List.mem_cons] at h
    rw [Entries.packages]
    rcases h with e | h
    · obtain ⟨e1, e2⟩ := Prod.mk.inj e
      cases e2
      rw [if_pos e1.symm, hp]
      simp
    · have ih := Entries.self_mem_packages rest self data fmode P h hp
      split
      · split
        · exact List.mem_cons_of_mem _ ih
        · exact ih
      · exact ih

theorem Entries.child_mem_packages : ∀ (es : Entries) (self : Node) (name : Str) (child : Node)
    (D : Node) (P : Str), (name, child) ∈ es.toList → (D, P) ∈ child.packages →
    (D, P) ∈ es.packages self
  | .nil, _, _, _, _, _, h, _ => by simp [Entries.toList] at h
  | .cons n0 (.dir cmode centries) rest, self, name, child, D, P, h, hc => by
    rw [Entries.toList, List.mem_cons] at h
    rw [Entries.packages, List.mem_append]
    rcases h with e | h
    · rw [(Prod.mk.inj e).2] at hc
      exact Or.inl hc
    · exact Or.inr (Entries.child_mem_packages rest self name child D P h hc)
  | .cons n0 (.file d0 m0) rest, self, name, child, D, P, h, hc => by
    rw [Entries.toList, List.mem_cons] at h
    rw [Entries.packages]
    rcases h with e | h
    · rw [(Prod.mk.inj e).2] at hc
      simp [Node.packages] at hc
    · have ih := Entries.child_mem_packages rest self name child D P h hc
      split
      · split
        · exact List.mem_cons_of_mem _ ih
        · exact ih
      · exact ih

/-- A package root reached from a tree is among its package roots. -/
theorem mem_packages_of_reaches (n : Node) (names : List Str) (D : Node) (P : Str)
    (hr : Reaches n names D) (hD : IsPackageRoot D P) : (D, P) ∈ n.packages := by
  induction hr with
  | here node =>
    obtain ⟨mode, entries, data, fmode, rfl, hmem, hp⟩ := hD
    rw [Node.packages]
    exact Entries.self_mem_packages entries _ data fmode P hmem hp
  | step mode entries name child names node hmem _ ih =>
    rw [Node.packages]
    exact Entries.child_mem_packages entries _ name child node P hmem (ih hD)

mutual
/-- The package roots of a tree are reached from it and hold a manifest that
parses. -/
theorem Node.reaches_of_mem_packages : ∀ (n : Node) (D : Node) (P : Str),
    (D, P) ∈ n.packages → ∃ names, Reaches n names D ∧ IsPackageRoot D P
  | .file _ _, _, _, h => by simp [Node.packages] at h
  | .dir mode entries, D, P, h => by
    rw [Node.packages] at h
    exact Entries.entry_reaches_of_mem_packages entries mode entries D P (fun x hx => hx) h
/-- The package roots met from entries of the directory `.dir mode all` are
reached from it and hold a manifest that parses. -/
theorem Entries.entry_reaches_of_mem_packages : ∀ (es : Entries) (mode : Nat) (all : Entries)
    (D : Node) (P : Str), (∀ x ∈ es.toList, x ∈ all.toList) →
    (D, P) ∈ es.packages (.dir mode all) →
    ∃ names, Reaches (.dir mode all) names D ∧ IsPackageRoot D P
  | .nil, _, _, _, _, _, h => by simp [Entries.packages] at h
  | .cons name (.dir cmode centries) rest, mode, all, D, P, hsub, h => by
    have hrest : ∀ x ∈ rest.toList, x ∈ all.toList :=
      fun x hx => hsub x (by simp [Entries.toList, hx])
    rw [Entries.packages, List.mem_append] at h
    rcases h with h | h
    · obtain ⟨names, hr, hD⟩ := Node.reaches_of_mem_packages (.dir cmode centries) D P h
      exact ⟨name :: names, Reaches.step mode all name _ names D
        (hsub _ (by simp [Entries.toList])) hr, hD⟩
    · exact Entries.entry_reaches_of_mem_packages rest mode all D P hrest h
  | .cons name (.file data fmode) rest, mode, all, D, P, hsub, h => by
    have hrest : ∀ x ∈ rest.toList, x ∈ all.toList :=
      fun x hx => hsub x (by simp [Entries.toList, hx])
    rw [Entries.packages] at h
    by_cases hn : name = gnoModFilename
    · rw [if_pos hn] at h
      cases hparse : modfile.Parse (.ok data) with
      | error perr =>
        rw [hparse] at h
        exact Entries.entry_reaches_of_mem_packages rest mode all D P hrest h
      | ok module =>
        rw [hparse] at h
        rcases List.mem_cons.mp h with e | h
        · obtain ⟨rfl, rfl⟩ := Prod.mk.inj e
          refine ⟨[], Reaches.here _, mode, all, data, fmode, rfl, ?_, hparse⟩
          rw [← hn]
          exact hsub _ (by simp [Entries.toList])
        · exact Entries.entry_reaches_of_mem_packages rest mode all D P hrest h
    · rw [if_neg hn] at h
      exact Entries.entry_reaches_of_mem_packages rest mode all D P hrest h
end

/-! ## Claims on `copyDir` -/

theorem Entries.mem_names_of_mem : ∀ (es : Entries) (name : Str) (node : Node),
    (name, node) ∈ es.toList → name ∈ es.names
  | .nil, _, _, h => by simp [Entries.toList] at h
  | .cons n c rest, name, node, h => by
    rw [Entries.toList, List.mem_cons] at h
    rcases h with h | h
    · simp [Entries.names, (Prod.mk.inj h).1]
    · simp [Entries.names, Entries.mem_names_of_mem rest name node h]

mutual
/-- The names that lead to a file of a tree are names of entries of the tree. -/
theorem Node.tree_files_valid : ∀ (n : Node) (p : List Str) (x : Str × Nat),
    n.validNames = true → (p, x) ∈ n.files → ∀ a ∈ p, validName a = true
  | .file _ _, p, x, _, h => by
    simp only [Node.files, List.mem_singleton, Prod.mk.injEq] at h
    rw [h.1]
    simp
  | .dir _ entries, p, x, hv, h => by
    rw [Node.files] at h
    exact Entries.entry_files_valid entries p x (by simpa [Node.validNames] using hv) h
/-- The names that lead to a file under entries are names of entries. -/
theorem Entries.entry_files_valid : ∀ (es : Entries) (p : List Str) (x : Str × Nat),
    es.validNames = true → (p, x) ∈ es.files → ∀ a ∈ p, validName a = true
  | .nil, _, _, _, h => by simp [Entries.files] at h
  | .cons name node rest, p, x, hv, h => by
    rw [Entries.validNames, Bool.and_eq_true, Bool.and_eq_true] at hv
    rw [Entries.files, List.mem_append] at h
    rcases h with h | h
    · obtain ⟨f, hf, he⟩ := List.mem_map.mp h
      have h1 := Node.tree_files_valid node f.1 f.2 hv.1.2 hf
      have h2 : p = name :: f.1 := (congrArg Prod.fst he).symm
      rw [h2]
      intro a ha
      rcases List.mem_cons.mp ha with rfl | ha
      · exact hv.1.1
      · exact h1 a ha
    · exact Entries.entry_files_valid rest p x hv.2 h
end

/-- The path `filepath.Join(dst, p)` of the copy of the file the names `p`
lead to names the place the names lead to from the place `dst` names. -/
theorem resolve_Join_names (cwd : List Str) (dst : Str) (p : List Str)
    (hv : ∀ n ∈ p, validName n = true) :
    resolve cwd (filepath.Join [dst, strings.Join '/' p]) = resolve cwd dst ++ p := by
  by_cases hp : p = []
  · subst hp
    cases dst with
    | nil =>
      have : filepath.Join [[], strings.Join '/' []] = [] := rfl
      rw [this]
      simp
    | cons c cs =>
      have : filepath.Join [c :: cs, strings.Join '/' []] = filepath.Clean ((c :: cs) ++ ['/']) := rfl
      rw [this, resolve_Clean]
      unfold resolve
      rw [Split_append]
      have e : Split '/' [] = [[]] := rfl
      rw [e, List.foldl_append]
      simp [resolveStep_skip]
  · have := resolve_Join_relOf cwd dst p hv
    simpa [relOf, hp] using this

/-- C5, at the failing inputs: `copyDir` returns no error and the copies have
the contents of the source files, but not their permission bits.  First, the
source directory of `TestCopyDir` is copied to a destination that holds a
file `file1.txt` with the bits 0600: read back, the file has kept the bits
0600, where the source file has 0644.  Second, a source file with the bits
0666 is copied to a destination where there is no such file, by a process
whose mask is 022: read back, the copy has the bits 0644. -/
theorem copyDir_mode_mismatch :
    ((copyDir copySource "dst".toList staleWorld).1 = none ∧
      ("file1.txt".toList :: [], "test content".toList, 0o644) ∈ copySource.files ∧
      (copyDir copySource "dst".toList staleWorld).2.fs
          (resolve staleWorld.cwd (filepath.Join ["dst".toList, "file1.txt".toList]))
        = some (.file "test content".toList 0o600) ∧
      (0o600 : Nat) ≠ 0o644) ∧
    ((copyDir looseSource "dst".toList testWorld).1 = none ∧
      ("file1.txt".toList :: [], "test content".toList, 0o666) ∈ looseSource.files ∧
      testWorld.umask = 0o022 ∧
      testWorld.fs (resolve testWorld.cwd (filepath.Join ["dst".toList, "file1.txt".toList]))
        = none ∧
      (copyDir looseSource "dst".toList testWorld).2.fs
          (resolve testWorld.cwd (filepath.Join ["dst".toList, "file1.txt".toList]))
        = some (.file "test content".toList 0o644) ∧
      (0o644 : Nat) ≠ 0o666) := by
  decide!

/-- The part of the round trip that `copyDir` achieves: for every source tree
(no directory of which has two entries of one name, and with names a file
system accepts) and every destination, if `copyDir` returns no error then for
every file of the source, led to by the names `p`, there is a file at
`filepath.Join(dst, p)` with the same contents. -/
theorem copyDir_contents (src : Node) (dst : Str) (w : World)
    (hv : src.validNames = true) (hu : src.uniqueNames = true)
    (h : (copyDir src dst w).1 = none) (p : List Str) (d : Str) (m : Nat)
    (hf : Reaches src p (.file d m)) :
    ∃ m', (copyDir src dst w).2.fs
        (resolve (copyDir src dst w).2.cwd (filepath.Join [dst, strings.Join '/' p]))
      = some (.file d m') := by
  have hs := walk_spec src dst [] w (copyDir src dst w).2 (by simp) hv hu (Prod.ext h rfl)
  obtain ⟨c, _, _, _, hi⟩ := hs
  have hm := Node.mem_files_of_reaches src p d m hf
  have hp := Node.tree_files_valid src p (d, m) hv hm
  rw [c, resolve_Join_names w.cwd dst p hp]
  exact ⟨_, hi _ d m ((mem_copiesUnder _ _ _ _).mpr ⟨p, hm, by simp⟩)⟩

/-! ## Claims on `processDirectory`: what is installed -/

theorem consistent_iff (S : List (List Str × Str × Nat)) :
    consistent S = true ↔
      ∀ q d m d' m', (q, d, m) ∈ S → (q, d', m') ∈ S → d = d' := by
  unfold consistent
  simp only [List.all_eq_true, Bool.or_eq_true, Bool.not_eq_true', decide_eq_false_iff_not,
    decide_eq_true_eq]
  constructor
  · intro h q d m d' m' h1 h2
    rcases h _ h1 _ h2 with h | h
    · exact absurd rfl h
    · exact h
  · intro h a ha b hb
    by_cases e : a.1 = b.1
    · right
      obtain ⟨q, d, m⟩ := a
      obtain ⟨q', d', m'⟩ := b
      simp only at e
      subst e
      exact h q d m d' m' ha hb
    · exact Or.inl e

theorem consistent_append_left (S T : List (List Str × Str × Nat))
    (h : consistent (S ++ T) = true) : consistent S = true := by
  rw [consistent_iff] at h ⊢
  exact fun q d m d' m' h1 h2 =>
    h q d m d' m' (List.mem_append_left _ h1) (List.mem_append_left _ h2)

theorem consistent_append_right (S T : List (List Str × Str × Nat))
    (h : consistent (S ++ T) = true) : consistent T = true := by
  rw [consistent_iff] at h ⊢
  exact fun q d m d' m' h1 h2 =>
    h q d m d' m' (List.mem_append_right _ h1) (List.mem_append_right _ h2)

theorem InstalledData_trans (S T : List (List Str × Str × Nat)) (b c : FS)
    (hS : InstalledData S b) (wT : Writes T b c) (hT : InstalledData T c)
    (hc : consistent (S ++ T) = true) : InstalledData (S ++ T) c := by
  rw [consistent_iff] at hc
  intro q d m hm
  rcases List.mem_append.mp hm with hm | hm
  · obtain ⟨m0, hb⟩ := hS q d m hm
    rcases wT q with g | ⟨d', m1, m', hm', g⟩ | ⟨gn, m1, g⟩
    · exact ⟨m0, g.trans hb⟩
    · have := hc q d m d' m1 (List.mem_append_left _ hm) (List.mem_append_right _ hm')
      exact ⟨m', by rw [g, this]⟩
    · rw [hb] at gn; cases gn
  · exact hT q d m hm

theorem InstalledData_of_Installed (umask : Nat) (S : List (List Str × Str × Nat)) (a b : FS)
    (h : Installed umask S a b) : InstalledData S b :=
  fun q d m hm => ⟨_, h q d m hm⟩

theorem InstalledData_nil (fs : FS) : InstalledData [] fs :=
  fun _ _ _ h => by simp at h

theorem installCopies_append (cwd : List Str) (a b : List (Node × Str)) :
    installCopies cwd (a ++ b) = installCopies cwd a ++ installCopies cwd b := by
  induction a with
  | nil => rfl
  | cons x xs ih =>
    obtain ⟨r, mp⟩ := x
    simp [installCopies, ih]

mutual
/-- A run of `processDirectory` that ends without error has copied the files
of the package roots of the tree under their destination directories, has
changed nothing else but for the directories it has made, and has printed
one line for each package root. -/
theorem processDirectory_spec : ∀ (n : Node) (dir rel : Str) (w w' : World),
    n.validNames = true → n.uniqueNames = true →
    processDirectory dir rel n w = (none, w') →
    w'.cwd = w.cwd ∧ w'.umask = w.umask ∧
      w'.stdout = w.stdout ++ installLines n.packages ∧
      Writes (installCopies w.cwd n.packages) w.fs w'.fs ∧
      (consistent (installCopies w.cwd n.packages) = true →
        InstalledData (installCopies w.cwd n.packages) w'.fs)
  | .file _ _, dir, rel, w, w', _, _, h => by
    rw [processDirectory] at h
    simp at h
  | .dir mode entries, dir, rel, w, w', hv, hu, h => by
    rw [processDirectory] at h
    rw [Node.packages]
    exact processEntries_spec entries dir rel (.dir mode entries) w w' hv hu
      (by simpa [Node.validNames] using hv) (by simpa [Node.uniqueNames] using hu) h
/-- The loop of `processDirectory` over entries of the directory `self`. -/
theorem processEntries_spec : ∀ (es : Entries) (dir rel : Str) (self : Node) (w w' : World),
    self.validNames = true → self.uniqueNames = true →
    es.validNames = true → es.uniqueNames = true →
    processEntries dir rel self es w = (none, w') →
    w'.cwd = w.cwd ∧ w'.umask = w.umask ∧
      w'.stdout = w.stdout ++ installLines (es.packages self) ∧
      Writes (installCopies w.cwd (es.packages self)) w.fs w'.fs ∧
      (consistent (installCopies w.cwd (es.packages self)) = true →
        InstalledData (installCopies w.cwd (es.packages self)) w'.fs)
  | .nil, dir, rel, self, w, w', _, _, _, _, h => by
    rw [processEntries] at h
    simp only [Prod.mk.injEq, true_and] at h
    subst h
    exact ⟨rfl, rfl, by simp [Entries.packages, installLines], Writes_refl _ _,
      fun _ => InstalledData_nil _⟩
  | .cons name (.dir cmode centries) rest, dir, rel, self, w, w', hsv, hsu, hv, hu, h => by
    rw [Entries.validNames, Bool.and_eq_true, Bool.and_eq_true] at hv
    rw [Entries.uniqueNames, Bool.and_eq_true, Bool.and_eq_true] at hu
    rw [processEntries] at h
    rcases hp : processDirectory (filepath.Join [dir, name]) (filepath.Join [rel, name])
      (.dir cmode centries) w with ⟨r, w1⟩
    rw [hp] at h
    cases r with
    | some err => simp at h
    | none =>
      simp only at h
      obtain ⟨c1, u1, o1, wr1, in1⟩ := processDirectory_spec (.dir cmode centries) _ _ w w1
        hv.1.2 hu.1.2 hp
      obtain ⟨c2, u2, o2, wr2, in2⟩ := processEntries_spec rest dir rel self w1 w' hsv hsu
        hv.2 hu.2 h
      rw [c1] at wr2 in2 c2
      rw [u1] at u2
      rw [Entries.packages, installCopies_append]
      refine ⟨c2, u2, ?_, Writes_trans _ _ _ _ _ wr1 wr2, ?_⟩
      · rw [o2, o1]
        simp [installLines]
      · intro hc
        exact InstalledData_trans _ _ w1.fs w'.fs (in1 (consistent_append_left _ _ hc)) wr2
          (in2 (consistent_append_right _ _ hc)) hc
  | .cons name (.file data fmode) rest, dir, rel, self, w, w', hsv, hsu, hv, hu, h => by
    rw [Entries.validNames, Bool.and_eq_true, Bool.and_eq_true] at hv
    rw [Entries.uniqueNames, Bool.and_eq_true, Bool.and_eq_true] at hu
    rw [processEntries] at h
    rw [Entries.packages]
    by_cases hn : name = gnoModFilename
    · rw [if_pos hn] at h ⊢
      cases hparse : modfile.Parse (.ok data) with
      | error perr =>
        rw [hparse] at h
        simp at h
      | ok module =>
        rw [hparse] at h
        simp only at h ⊢
        rcases hmk : MkdirAll (destDir module.Path) 0o755 w with ⟨r1, w1⟩
        rw [hmk] at h
        cases r1 with
        | some err => simp at h
        | none =>
          simp only at h
          rcases hcp : copyDir self (destDir module.Path) w1 with ⟨r2, w2⟩
          rw [hcp] at h
          cases r2 with
          | some err => simp at h
          | none =>
            simp only at h
            have h1 := MkdirAll_spec (destDir module.Path) 0o755 w
            rw [hmk] at h1
            obtain ⟨c1, u1, o1, wr1⟩ := h1
            simp only at c1 u1 o1 wr1
            obtain ⟨c2, u2, o2, wr2, in2⟩ := walk_spec self (destDir module.Path) [] w1 w2
              (by simp) hsv hsu hcp
            rw [c1, List.append_nil] at wr2 in2
            obtain ⟨c3, u3, o3, wr3, in3⟩ := processEntries_spec rest dir rel self _ w' hsv hsu
              hv.2 hu.2 h
            simp only at c3 u3 o3 wr3 in3
            rw [c2, c1] at c3 wr3 in3
            rw [u2, u1] at u3
            rw [o2, o1] at o3
            have wr12 : Writes (copiesUnder (resolve w.cwd (destDir module.Path)) self.files)
                w.fs w2.fs := by
              simpa using Writes_trans [] _ _ _ _ wr1 wr2
            refine ⟨c3, u3, ?_, ?_, ?_⟩
            · rw [o3]
              simp [installLines]
            · exact Writes_trans _ _ _ _ _ wr12 wr3
            · intro hc
              exact InstalledData_trans _ _ w2.fs w'.fs
                (InstalledData_of_Installed _ _ _ _ in2) wr3
                (in3 (consistent_append_right _ _ hc)) hc
    · rw [if_neg hn] at h ⊢
      exact processEntries_spec rest dir rel self w w' hsv hsu hv.2 hu.2 h
end

theorem mem_installCopies (cwd q : List Str) (x : Str × Nat) (pkgs : List (Node × Str)) :
    (q, x) ∈ installCopies cwd pkgs ↔
      ∃ D P p, (D, P) ∈ pkgs ∧ (p, x) ∈ D.files ∧ q = resolve cwd (destDir P) ++ p := by
  induction pkgs with
  | nil => simp [installCopies]
  | cons pkg rest ih =>
    obtain ⟨D0, P0⟩ := pkg
    rw [installCopies, List.mem_append, mem_copiesUnder, ih]
    constructor
    · rintro (⟨p, hp, hq⟩ | ⟨D, P, p, hm, hp, hq⟩)
      · exact ⟨D0, P0, p, by simp, hp, hq⟩
      · exact ⟨D, P, p, List.mem_cons_of_mem _ hm, hp, hq⟩
    · rintro ⟨D, P, p, hm, hp, hq⟩
      rcases List.mem_cons.mp hm with e | hm
      · obtain ⟨rfl, rfl⟩ := Prod.mk.inj e
        exact Or.inl ⟨p, hp, hq⟩
      · exact Or.inr ⟨D, P, p, hm, hp, hq⟩

mutual
/-- The package roots of a tree with valid names have valid names. -/
theorem Node.tree_packages_valid : ∀ (n : Node) (D : Node) (P : Str),
    n.validNames = true → (D, P) ∈ n.packages → D.validNames = true
  | .file _ _, _, _, _, h => by simp [Node.packages] at h
  | .dir mode entries, D, P, hv, h => by
    rw [Node.packages] at h
    exact Entries.entry_packages_valid entries (.dir mode entries) D P hv
      (by simpa [Node.validNames] using hv) h
/-- The package roots met from entries with valid names have valid names. -/
theorem Entries.entry_packages_valid : ∀ (es : Entries) (self D : Node) (P : Str),
    self.validNames = true → es.validNames = true → (D, P) ∈ es.packages self →
    D.validNames = true
  | .nil, _, _, _, _, _, h => by simp [Entries.packages] at h
  | .cons name (.dir cmode centries) rest, self, D, P, hs, hv, h => by
    rw [Entries.validNames, Bool.and_eq_true, Bool.and_eq_true] at hv
    rw [Entries.packages, List.mem_append] at h
    rcases h with h | h
    · exact Node.tree_packages_valid (.dir cmode centries) D P hv.1.2 h
    · exact Entries.entry_packages_valid rest self D P hs hv.2 h
  | .cons name (.file data fmode) rest, self, D, P, hs, hv, h => by
    rw [Entries.validNames, Bool.and_eq_true, Bool.and_eq_true] at hv
    rw [Entries.packages] at h
    by_cases hn : name = gnoModFilename
    · rw [if_pos hn] at h
      cases hparse : modfile.Parse (.ok data) with
      | error perr =>
        rw [hparse] at h
        exact Entries.entry_packages_valid rest self D P hs hv.2 h
      | ok module =>
        rw [hparse] at h
        rcases List.mem_cons.mp h with e | h
        · rw [(Prod.mk.inj e).1]; exact hs
        · exact Entries.entry_packages_valid rest self D P hs hv.2 h
    · rw [if_neg hn] at h
      exact Entries.entry_packages_valid rest self D P hs hv.2 h
end

/-- C4, counterexample: in a repository whose directories `a` and `b` hold
the manifests `module x` and `module x` with a final newline,
`processDirectory` succeeds from an empty working directory; `a` is a package
root with module path `x` and its file `gno.mod` has the contents `module x`,
but the file `gno/examples/x/gno.mod` has the contents of the manifest of
`b`: it is not a copy of the manifest of `a` with unmodified content. -/
theorem processDirectory_installs_counterexample :
    (processDirectory "/tmp/gnock-7".toList [] twinRepo testWorld).1 = none ∧
      twinRepo.packages.map Prod.snd = ["x".toList, "x".toList] ∧
      (twinRepo.packages.map (fun pkg => pkg.1.files)).head?
        = some [(["gno.mod".toList], "module x".toList, 0o644)] ∧
      (processDirectory "/tmp/gnock-7".toList [] twinRepo testWorld).2.fs
          (resolve testWorld.cwd (filepath.Join [destDir "x".toList, "gno.mod".toList]))
        = some (.file "module x\n".toList 0o644) ∧
      "module x\n".toList ≠ "module x".toList := by
  decide!

/-- C4, amended: for every fetched source tree (no directory of which has two
entries of one name, with names a file system accepts) on which
`processDirectory` succeeds starting with nothing under `gno` in the working
directory, and such that any two files copied to one destination path have
the same contents: one line is printed for each directory that directly holds
a `gno.mod` file, in the order of the visit; for each such directory `D`,
whose manifest parses to the module path `P`, and each file under `D`, led to
by the names `p`, there is a file with the same contents at the relative path
`p` under `filepath.Join("gno", "examples", P)`; and every file under `gno`
is such a copy. -/
theorem processDirectory_installs (dir : Str) (root : Node) (w : World)
    (hv : root.validNames = true) (hu : root.uniqueNames = true)
    (h : (processDirectory dir [] root w).1 = none)
    (hempty : ∀ q, w.cwd ++ ["gno".toList] <+: q → w.fs q = none)
    (hcons : consistent (installCopies w.cwd root.packages) = true) :
    (processDirectory dir [] root w).2.stdout = w.stdout ++ installLines root.packages ∧
      (∀ names D P p d m, Reaches root names D → IsPackageRoot D P →
        Reaches D p (.file d m) →
        ∃ m', (processDirectory dir [] root w).2.fs
            (resolve (processDirectory dir [] root w).2.cwd
              (filepath.Join [destDir P, strings.Join '/' p]))
          = some (.file d m')) ∧
      (∀ q d m', w.cwd ++ ["gno".toList] <+: q →
        (processDirectory dir [] root w).2.fs q = some (.file d m') →
        ∃ names D P p m, Reaches root names D ∧ IsPackageRoot D P ∧
          Reaches D p (.file d m) ∧
          q = resolve (processDirectory dir [] root w).2.cwd
            (filepath.Join [destDir P, strings.Join '/' p])) := by
  obtain ⟨c, _, o, wr, ins⟩ := processDirectory_spec root dir [] w
    (processDirectory dir [] root w).2 hv hu (Prod.ext h rfl)
  rw [c]
  refine ⟨o, ?_, ?_⟩
  · intro names D P p d m hr hroot hfile
    have hD := mem_packages_of_reaches root names D P hr hroot
    have hp := Node.mem_files_of_reaches D p d m hfile
    have hpv := Node.tree_files_valid D p (d, m) (Node.tree_packages_valid root D P hv hD) hp
    rw [resolve_Join_names w.cwd (destDir P) p hpv]
    exact ins hcons _ d m ((mem_installCopies _ _ _ _).mpr ⟨D, P, p, hD, hp, rfl⟩)
  · intro q d m' hq hfile
    rcases wr q with g | ⟨d0, m, m1, hm, g⟩ | ⟨_, m, g⟩
    · rw [g, hempty q hq] at hfile
      cases hfile
    · rw [g] at hfile
      have hd : d0 = d := by
        simp only [Option.some.injEq, Obj.file.injEq] at hfile
        exact hfile.1
      subst hd
      obtain ⟨D, P, p, hD, hp, e⟩ := (mem_installCopies _ _ _ _).mp hm
      have hpv := Node.tree_files_valid D p (d0, m) (Node.tree_packages_valid root D P hv hD) hp
      obtain ⟨names, hr, hroot⟩ := Node.reaches_of_mem_packages root D P hD
      exact ⟨names, D, P, p, m, hr, hroot, Node.reaches_of_mem_files D p d0 m hp, by
        rw [resolve_Join_names w.cwd (destDir P) p hpv]; exact e⟩
    · rw [g] at hfile
      cases hfile

theorem testWorld_empty (q : List Str) (hq : testWorld.cwd ++ ["gno".toList] <+: q) :
    testWorld.fs q = none := by
  obtain ⟨t, rfl⟩ := hq
  simp [testWorld]

/-- C4, witness: the repository of `TestGetPackageComplexStructure`, from the
empty working directory: two lines are printed, and the file `foo.gno` of
`example_pkg/nested1` is under `gno/examples/gno.land/p/demo/nested1`. -/
theorem processDirectory_installs_witness :
    (processDirectory "/tmp/gnock-7".toList [] mockRepo testWorld).2.stdout
        = testWorld.stdout ++ installLines mockRepo.packages ∧
      ∃ m', (processDirectory "/tmp/gnock-7".toList [] mockRepo testWorld).2.fs
          (resolve (processDirectory "/tmp/gnock-7".toList [] mockRepo testWorld).2.cwd
            (filepath.Join [destDir "gno.land/p/demo/nested1".toList,
              strings.Join '/' ["foo.gno".toList]]))
        = some (.file "// foo.gno content".toList m') :=
  have h := processDirectory_installs "/tmp/gnock-7".toList mockRepo testWorld
    (by decide!) (by decide!) (by decide!) testWorld_empty (by decide!)
  ⟨h.1, h.2.1 ["example_pkg".toList, "nested1".toList] mockNested1
    "gno.land/p/demo/nested1".toList ["foo.gno".toList] "// foo.gno content".toList 0o644
    (Reaches.step _ _ _ _ _ _ (List.Mem.head _)
      (Reaches.step _ _ _ _ _ _ (List.Mem.head _) (Reaches.here _)))
    ⟨_, _, _, _, rfl, List.Mem.tail _ (List.Mem.tail _ (List.Mem.head _)), by decide!⟩
    (Reaches.step _ _ _ _ _ _ (List.Mem.head _) (Reaches.here _))⟩

/-! ## The tests of `internal/fetch_test.go`, replayed -/

/-- The run of the case `Valid URL and successful clone` of `TestGetPackage`:
no error, and the directory `gno/examples/gno.land/r/demo/mypackage` exists. -/
theorem GetPackage_valid_url :
    (GetPackage (mockGitClone simpleRepo) "github.com/username/repo".toList testWorld).1 = none ∧
      (GetPackage (mockGitClone simpleRepo) "github.com/username/repo".toList testWorld).2.fs
          (resolve testWorld.cwd "gno/examples/gno.land/r/demo/mypackage".toList)
        = some (.dir 0o755) := by
  decide!

/-- The run of the case `Git clone fails` of `TestGetPackage`: the error of
the fetcher comes back wrapped, and nothing is left of the scratch directory,
in which this fetcher has put nothing. -/
theorem GetPackage_clone_fails :
    (GetPackage mockGitFails "github.com/username/repo".toList testWorld).1
        = some (.errorf "failed to clone repository: git clone failed".toList) ∧
      ((GetPackage mockGitFails "github.com/username/repo".toList testWorld).2.tmp
        "gnock-7".toList).isNone = true := by
  decide!

/-- The run of `TestGetPackageComplexStructure`: `GetPackage` returns no error,
the six expected files are installed with their contents, nothing is left of
the scratch directory and both packages are reported. -/
theorem GetPackage_complex_structure :
    (GetPackage (mockGitClone mockRepo) "github.com/example/repo".toList testWorld).1 = none ∧
      ((GetPackage (mockGitClone mockRepo) "github.com/example/repo".toList testWorld).2.fs
          (resolve testWorld.cwd "gno/examples/gno.land/p/demo/nested1/foo.gno".toList),
        (GetPackage (mockGitClone mockRepo) "github.com/example/repo".toList testWorld).2.fs
          (resolve testWorld.cwd "gno/examples/gno.land/p/demo/nested1/foo_test.gno".toList),
        (GetPackage (mockGitClone mockRepo) "github.com/example/repo".toList testWorld).2.fs
          (resolve testWorld.cwd "gno/examples/gno.land/p/demo/nested1/gno.mod".toList),
        (GetPackage (mockGitClone mockRepo) "github.com/example/repo".toList testWorld).2.fs
          (resolve testWorld.cwd "gno/examples/gno.land/r/nested2/bar.gno".toList),
        (GetPackage (mockGitClone mockRepo) "github.com/example/repo".toList testWorld).2.fs
          (resolve testWorld.cwd "gno/examples/gno.land/r/nested2/bar_test.gno".toList),
        (GetPackage (mockGitClone mockRepo) "github.com/example/repo".toList testWorld).2.fs
          (resolve testWorld.cwd "gno/examples/gno.land/r/nested2/gno.mod".toList))
        = (some (.file "// foo.gno content".toList 0o644),
          some (.file "// foo_test.gno content".toList 0o644),
          some (.file "module gno.land/p/demo/nested1".toList 0o644),
          some (.file "// bar.gno content".toList 0o644),
          some (.file "// bar_test.gno content".toList 0o644),
          some (.file "module gno.land/r/nested2".toList 0o644)) ∧
      ((GetPackage (mockGitClone mockRepo) "github.com/example/repo".toList testWorld).2.tmp
          "gnock-7".toList).isNone = true ∧
      (GetPackage (mockGitClone mockRepo) "github.com/example/repo".toList testWorld).2.stdout
        = ["Package gno.land/p/demo/nested1 installed successfully to gno/examples/gno.land/p/demo/nested1\n".toList,
          "Package gno.land/r/nested2 installed successfully to gno/examples/gno.land/r/nested2\n".toList] := by
  decide!

end Gnock
